import Mathlib

/-!
# Verification of the schema-graph analysis algorithms of supabase-viewer

This file gives a shallow embedding, in Lean, of the pure analysis
algorithms of the supabase-viewer repository (topological level
assignment, union-find clustering, connection matrix, hierarchy
builder, force-directed layout, dagre wrapper), together with theorems
settling the specified properties of those algorithms.

Each definition is a direct translation of the corresponding
TypeScript source.  JavaScript objects used purely as dictionaries are
modelled as functions into Option; JavaScript Sets whose iteration
order is irrelevant are modelled as lists considered up to membership;
numeric values are modelled as rationals (the sources use no
floating-point-specific behaviour besides Math.sqrt, which is passed
in as an abstract function parameter where needed).
-/

/-- Data model, from src/lib/schema-types.ts (ColumnInfo). -/
structure ColumnInfo where
  name : String
  dataType : String
  isNullable : Bool
  defaultValue : Option String
  isPrimaryKey : Bool
  isForeignKey : Bool
  isUnique : Bool
  references : Option (String × String)
deriving DecidableEq

/-- Data model, from src/lib/schema-types.ts (TableInfo). -/
structure TableInfo where
  name : String
  schema : String
  columns : List ColumnInfo
deriving DecidableEq

/-- Data model, from src/lib/schema-types.ts (ForeignKey). -/
structure ForeignKey where
  constraintName : String
  sourceTable : String
  sourceColumn : String
  targetTable : String
  targetColumn : String
deriving DecidableEq

/-- Data model, from src/lib/schema-types.ts (SchemaData; the enum
definitions are not analysed by any algorithm). -/
structure SchemaData where
  tables : List TableInfo
  foreignKeys : List ForeignKey
  enums : List (String × List String)
deriving DecidableEq

/-- The table names of a table list. -/
def namesOf (tables : List TableInfo) : List String := tables.map (·.name)

/-! ## Level assignment (ProcessFlowView.tsx lines 40-61, and the
identical loop of TimelineView in HierarchyView.tsx lines 410-434).

The views first compute a filtered table list; the functions below
take that list of table names as the parameter ts.  The deps record
maps each filtered table name to the targets of the foreign keys whose
source is that table (a JS Set; membership is all the level loop ever
uses, so it is modelled as the list of targets). -/

/-- deps construction: deps[t] is created for every filtered table t,
and fk.targetTable is added to deps[fk.sourceTable] whenever the
source row exists (the target is not checked). -/
def depsOf (ts : List String) (fks : List ForeignKey) (n : String) : List String :=
  if n ∈ ts then (fks.filter (fun fk => fk.sourceTable == n)).map (·.targetTable) else []

/-- The unresolved dependencies of table n given the placed set. -/
def unmetOf (deps : String → List String) (placed : List String) (n : String) : List String :=
  (deps n).filter (fun d => decide (d ∉ placed))

/-- The unplaced tables all of whose dependencies are placed (the
level array as first built by an iteration of the loop). -/
def candidatesOf (deps : String → List String) (ts placed : List String) : List String :=
  ts.filter (fun n => decide (n ∉ placed ∧ unmetOf deps placed n = []))

/-- One iteration of the level loop: collect every unplaced table all
of whose dependencies are placed; if none qualifies, force-place all
remaining unplaced tables. -/
def levelOf (deps : String → List String) (ts placed : List String) : List String :=
  if candidatesOf deps ts placed = [] then ts.filter (fun n => decide (n ∉ placed))
  else candidatesOf deps ts placed

/-- placed is a JS Set of names; adding the names of a level skips the
ones already present. -/
def addPlaced (placed lv : List String) : List String :=
  lv.foldl (fun ps n => if n ∈ ps then ps else ps ++ [n]) placed

/-- The while loop, with explicit fuel (the loop guard is
placed.size < tables.length). -/
def levelsAux (deps : String → List String) (ts : List String) :
    ℕ → List String → List (List String)
  | 0, _ => []
  | fuel+1, placed =>
    if ts.length ≤ placed.length then []
    else
      let lv := levelOf deps ts placed
      lv :: levelsAux deps ts fuel (addPlaced placed lv)

/-- The level list computed by ProcessFlowView (a fuel of T = number
of filtered tables always suffices; see the termination theorem). -/
def levelsOf (ts : List String) (fks : List ForeignKey) : List (List String) :=
  levelsAux (depsOf ts fks) ts ts.length []

/-- The level index of a table name in a level list. -/
def levelIdx (lvs : List (List String)) (n : String) : ℕ :=
  lvs.findIdx (fun lv => decide (n ∈ lv))

/-! ### Basic lemmas about one loop iteration -/

theorem mem_candidatesOf {deps ts placed} {n : String} :
    n ∈ candidatesOf deps ts placed ↔
      n ∈ ts ∧ n ∉ placed ∧ unmetOf deps placed n = [] := by
  simp [candidatesOf, List.mem_filter, and_assoc]

theorem mem_levelOf {deps ts placed} {n : String} (h : n ∈ levelOf deps ts placed) :
    n ∈ ts ∧ n ∉ placed := by
  unfold levelOf at h
  split at h
  · rcases List.mem_filter.1 h with ⟨h1, h2⟩
    simp only [decide_eq_true_eq] at h2
    exact ⟨h1, h2⟩
  · rcases mem_candidatesOf.1 h with ⟨h1, h2, _⟩
    exact ⟨h1, h2⟩

theorem levelOf_nodup (deps : String → List String) {ts placed : List String}
    (h : ts.Nodup) : (levelOf deps ts placed).Nodup := by
  unfold levelOf
  split
  · exact h.filter _
  · exact h.filter _

theorem levelOf_ne_nil (deps : String → List String) {ts placed : List String}
    {n : String} (hn : n ∈ ts) (hnp : n ∉ placed) :
    levelOf deps ts placed ≠ [] := by
  unfold levelOf
  split
  · intro hc
    have hmem : n ∈ ts.filter (fun n => decide (n ∉ placed)) :=
      List.mem_filter.2 ⟨hn, by simpa using hnp⟩
    rw [hc] at hmem
    exact absurd hmem (List.not_mem_nil n)
  · assumption

theorem addPlaced_eq_append {placed lv : List String} (hd : ∀ n ∈ lv, n ∉ placed)
    (hn : lv.Nodup) : addPlaced placed lv = placed ++ lv := by
  induction lv generalizing placed with
  | nil => simp [addPlaced]
  | cons a l ih =>
    have ha : a ∉ placed := hd a (List.mem_cons_self a l)
    have hstep : addPlaced placed (a :: l) = addPlaced (placed ++ [a]) l := by
      simp [addPlaced, List.foldl_cons, ha]
    rw [hstep, ih]
    · simp
    · intro n hnl
      have hna : n ≠ a := by
        rintro rfl
        exact (List.nodup_cons.1 hn).1 hnl
      simp only [List.mem_append, List.mem_singleton]
      rintro (h | h)
      · exact hd n (List.mem_cons_of_mem a hnl) h
      · exact hna h
    · exact (List.nodup_cons.1 hn).2

/-- If all of the nodup list ts is contained in placed then ts is no
longer than placed. -/
theorem length_le_of_nodup_subset {ts placed : List String} (h : ts.Nodup)
    (hs : ∀ n ∈ ts, n ∈ placed) : ts.length ≤ placed.length :=
  List.Subperm.length_le (List.subperm_of_subset h hs)

theorem exists_unplaced_of_lt {ts placed : List String} (hts : ts.Nodup)
    (hlen : placed.length < ts.length) : ∃ n ∈ ts, n ∉ placed := by
  by_contra hc
  push_neg at hc
  exact absurd (length_le_of_nodup_subset hts hc) (by omega)

/-! ### Termination and partition (claim C1) -/

theorem levelsAux_length_le {deps : String → List String} {ts : List String} :
    ∀ fuel placed, (levelsAux deps ts fuel placed).length ≤ fuel := by
  intro fuel
  induction fuel with
  | zero => intro placed; simp [levelsAux]
  | succ f ih =>
    intro placed
    rw [levelsAux]
    split
    · simp
    · simpa using ih (addPlaced placed (levelOf deps ts placed))


theorem levelsAux_succ_of_ge {deps : String → List String} {ts placed : List String} {f : ℕ}
    (h : ts.length ≤ placed.length) : levelsAux deps ts (f+1) placed = [] := by
  rw [levelsAux]
  simp [h]

theorem levelsAux_succ_of_lt {deps : String → List String} {ts placed : List String} {f : ℕ}
    (h : ¬ ts.length ≤ placed.length) :
    levelsAux deps ts (f+1) placed =
      levelOf deps ts placed ::
        levelsAux deps ts f (addPlaced placed (levelOf deps ts placed)) := by
  rw [levelsAux]
  simp [h]

theorem mem_placed_of_guard {ts placed : List String} (hp : placed.Nodup)
    (hsub : ∀ x ∈ placed, x ∈ ts) (hge : ts.length ≤ placed.length)
    {n : String} (hn : n ∈ ts) : n ∈ placed := by
  by_contra hnp
  have hnd : (placed ++ [n]).Nodup := by
    refine List.Nodup.append hp (List.nodup_singleton n) ?_
    intro a ha hb
    rw [List.mem_singleton] at hb
    subst hb
    exact hnp ha
  have hsub2 : ∀ x ∈ placed ++ [n], x ∈ ts := by
    intro x hx
    rcases List.mem_append.1 hx with hx | hx
    · exact hsub x hx
    · rw [List.mem_singleton] at hx; subst hx; exact hn
  have := length_le_of_nodup_subset hnd hsub2
  simp at this
  omega

theorem levelsAux_invariant_step (deps : String → List String) {ts placed : List String}
    (hts : ts.Nodup) (hp : placed.Nodup) (hsub : ∀ x ∈ placed, x ∈ ts)
    (hlen : ¬ ts.length ≤ placed.length) :
    (addPlaced placed (levelOf deps ts placed) = placed ++ levelOf deps ts placed)
    ∧ (placed ++ levelOf deps ts placed).Nodup
    ∧ (∀ x ∈ placed ++ levelOf deps ts placed, x ∈ ts)
    ∧ 1 ≤ (levelOf deps ts placed).length := by
  have hdisj : ∀ n ∈ levelOf deps ts placed, n ∉ placed := fun n hn => (mem_levelOf hn).2
  have hlvnd : (levelOf deps ts placed).Nodup := levelOf_nodup deps hts
  obtain ⟨n, hn, hnp⟩ := exists_unplaced_of_lt hts (show placed.length < ts.length by omega)
  have hne : levelOf deps ts placed ≠ [] := levelOf_ne_nil deps hn hnp
  refine ⟨addPlaced_eq_append hdisj hlvnd, ?_, ?_, ?_⟩
  · exact List.Nodup.append hp hlvnd (fun a ha hb => hdisj a hb ha)
  · intro x hx
    rcases List.mem_append.1 hx with hx | hx
    · exact hsub x hx
    · exact (mem_levelOf hx).1
  · have := List.length_pos.2 hne
    omega

theorem levelsAux_count (deps : String → List String) {ts : List String} (hts : ts.Nodup) :
    ∀ fuel placed, placed.Nodup → (∀ x ∈ placed, x ∈ ts) →
      ts.length ≤ placed.length + fuel →
      ∀ n ∈ ts, (levelsAux deps ts fuel placed).flatten.count n =
        (if n ∈ placed then 0 else 1) := by
  intro fuel
  induction fuel with
  | zero =>
    intro placed hp hsub hpot n hn
    have hnp : n ∈ placed := mem_placed_of_guard hp hsub (by omega) hn
    simp [levelsAux, hnp]
  | succ f ih =>
    intro placed hp hsub hpot n hn
    by_cases hguard : ts.length ≤ placed.length
    · have hnp : n ∈ placed := mem_placed_of_guard hp hsub hguard hn
      rw [levelsAux_succ_of_ge hguard]
      simp [hnp]
    · obtain ⟨heq, hnd2, hsub2, hlv1⟩ := levelsAux_invariant_step deps hts hp hsub hguard
      rw [levelsAux_succ_of_lt hguard, heq]
      have hpot2 : ts.length ≤ (placed ++ levelOf deps ts placed).length + f := by
        simp only [List.length_append]
        omega
      have ihres := ih (placed ++ levelOf deps ts placed) hnd2 hsub2 hpot2 n hn
      simp only [List.flatten_cons, List.count_append]
      rw [ihres]
      by_cases hnp : n ∈ placed
      · have hnlv : n ∉ levelOf deps ts placed := fun h => (mem_levelOf h).2 hnp
        simp [hnp, List.count_eq_zero.2 hnlv]
      · by_cases hnlv : n ∈ levelOf deps ts placed
        · have h1 : (levelOf deps ts placed).count n = 1 :=
            List.count_eq_one_of_mem (levelOf_nodup deps hts) hnlv
          simp [hnp, hnlv, h1]
        · simp [hnp, hnlv, List.count_eq_zero.2 hnlv]

theorem levelsAux_fuel_irrelevant (deps : String → List String) {ts : List String}
    (hts : ts.Nodup) :
    ∀ f g placed, placed.Nodup → (∀ x ∈ placed, x ∈ ts) →
      ts.length ≤ placed.length + f → ts.length ≤ placed.length + g →
      levelsAux deps ts f placed = levelsAux deps ts g placed := by
  intro f
  induction f with
  | zero =>
    intro g placed _ _ hf _
    cases g with
    | zero => rfl
    | succ g => rw [levelsAux_succ_of_ge (by omega), levelsAux]
  | succ f ih =>
    intro g placed hp hsub hf hg
    cases g with
    | zero => rw [levelsAux_succ_of_ge (by omega), levelsAux]
    | succ g =>
      by_cases hguard : ts.length ≤ placed.length
      · rw [levelsAux_succ_of_ge hguard, levelsAux_succ_of_ge hguard]
      · obtain ⟨heq, hnd2, hsub2, hlv1⟩ := levelsAux_invariant_step deps hts hp hsub hguard
        rw [levelsAux_succ_of_lt hguard, levelsAux_succ_of_lt hguard, heq]
        have hpot2f : ts.length ≤ (placed ++ levelOf deps ts placed).length + f := by
          simp only [List.length_append]; omega
        have hpot2g : ts.length ≤ (placed ++ levelOf deps ts placed).length + g := by
          simp only [List.length_append]; omega
        rw [ih g _ hnd2 hsub2 hpot2f hpot2g]

theorem levelsAux_members (deps : String → List String) {ts : List String} :
    ∀ fuel placed, ∀ lv ∈ levelsAux deps ts fuel placed, ∀ n ∈ lv, n ∈ ts := by
  intro fuel
  induction fuel with
  | zero => intro placed lv hlv; simp [levelsAux] at hlv
  | succ f ih =>
    intro placed lv hlv n hn
    by_cases hguard : ts.length ≤ placed.length
    · rw [levelsAux_succ_of_ge hguard] at hlv
      simp at hlv
    · rw [levelsAux_succ_of_lt hguard] at hlv
      rcases List.mem_cons.1 hlv with hlv | hlv
      · subst hlv; exact (mem_levelOf hn).1
      · exact ih _ lv hlv n hn

/-- C1: for every schema model (table names are unique by the data
model invariant) and every filtered table subset of size T, the level
assignment loop terminates after at most T iterations (the level list
has at most T levels, and running the loop with any fuel of at least T
computes the same level list, i.e. the loop has already stopped), and
every filtered table appears in exactly one level of the returned
level list: counting over all levels, each filtered table occurs
exactly once, and levels contain only filtered tables. -/
theorem levelAssignment_terminates_and_partitions (ts : List String) (fks : List ForeignKey)
    (hts : ts.Nodup) :
    (levelsOf ts fks).length ≤ ts.length
    ∧ (∀ fuel, ts.length ≤ fuel →
        levelsAux (depsOf ts fks) ts fuel [] = levelsOf ts fks)
    ∧ (∀ n ∈ ts, (levelsOf ts fks).flatten.count n = 1)
    ∧ (∀ lv ∈ levelsOf ts fks, ∀ n ∈ lv, n ∈ ts) := by
  refine ⟨levelsAux_length_le ts.length [], ?_, ?_, ?_⟩
  · intro fuel hfuel
    exact levelsAux_fuel_irrelevant (depsOf ts fks) hts fuel ts.length [] (List.nodup_nil)
      (by simp) (by simpa using hfuel) (by simp)
  · intro n hn
    have hres := levelsAux_count (depsOf ts fks) hts ts.length [] List.nodup_nil
      (by simp) (by simp) n hn
    simpa using hres
  · exact levelsAux_members (depsOf ts fks) ts.length []

/-- Witness for C1 at a concrete input: two tables, one foreign key. -/
theorem levelAssignment_terminates_and_partitions_witness :
    (["users", "posts"] : List String).Nodup
    ∧ (levelsOf ["users", "posts"]
        [⟨"fk1", "posts", "user_id", "users", "id"⟩]).flatten.count "posts" = 1 := by
  refine ⟨by decide, ?_⟩
  exact (levelAssignment_terminates_and_partitions ["users", "posts"]
    [⟨"fk1", "posts", "user_id", "users", "id"⟩] (by decide)).2.2.1 "posts" (by decide)

/-! ### Strict level monotonicity (claim C2) -/

/-- Acyclicity of the dependency graph on the filtered table set,
expressed by a rank function (for a finite graph this is equivalent to
the absence of directed cycles among filtered tables). -/
def RankedAcyclic (deps : String → List String) (ts : List String) : Prop :=
  ∃ ρ : String → ℕ, ∀ n ∈ ts, ∀ d ∈ deps n, d ∈ ts → ρ d < ρ n

theorem exists_min_rank (ρ : String → ℕ) :
    ∀ l : List String, l ≠ [] → ∃ n ∈ l, ∀ m ∈ l, ρ n ≤ ρ m := by
  intro l
  induction l with
  | nil => intro h; exact absurd rfl h
  | cons a t ih =>
    intro _
    cases t with
    | nil => exact ⟨a, List.mem_singleton_self a, fun m hm => by
        rw [List.mem_singleton] at hm; subst hm; exact le_refl _⟩
    | cons b u =>
      obtain ⟨n, hn, hmin⟩ := ih (by simp)
      by_cases hab : ρ a ≤ ρ n
      · refine ⟨a, List.mem_cons_self a _, fun m hm => ?_⟩
        rcases List.mem_cons.1 hm with hm | hm
        · subst hm; exact le_refl _
        · exact le_trans hab (hmin m hm)
      · refine ⟨n, List.mem_cons_of_mem a hn, fun m hm => ?_⟩
        rcases List.mem_cons.1 hm with hm | hm
        · subst hm; omega
        · exact hmin m hm

/-- Under closed and acyclic dependencies, an iteration with an
unplaced table never stalls: the candidate level is nonempty, so the
forced-placement fallback is not taken. -/
theorem candidates_ne_nil_of_acyclic {deps : String → List String} {ts placed : List String}
    (hclosed : ∀ n ∈ ts, ∀ d ∈ deps n, d ∈ ts)
    (ρ : String → ℕ) (hρ : ∀ n ∈ ts, ∀ d ∈ deps n, d ∈ ts → ρ d < ρ n)
    {n0 : String} (hn0 : n0 ∈ ts) (hnp0 : n0 ∉ placed) :
    candidatesOf deps ts placed ≠ [] := by
  have hU : n0 ∈ ts.filter (fun n => decide (n ∉ placed)) :=
    List.mem_filter.2 ⟨hn0, by simpa using hnp0⟩
  obtain ⟨n, hn, hmin⟩ := exists_min_rank ρ (ts.filter (fun n => decide (n ∉ placed)))
    (List.ne_nil_of_mem hU)
  have hnts : n ∈ ts := (List.mem_filter.1 hn).1
  have hnpl : n ∉ placed := by
    have := (List.mem_filter.1 hn).2
    simpa using this
  have hcand : n ∈ candidatesOf deps ts placed := by
    refine mem_candidatesOf.2 ⟨hnts, hnpl, ?_⟩
    rw [unmetOf, List.filter_eq_nil_iff]
    intro d hd
    simp only [decide_eq_true_eq, not_not]
    by_contra hdp
    have hdts : d ∈ ts := hclosed n hnts d hd
    have hdU : d ∈ ts.filter (fun n => decide (n ∉ placed)) :=
      List.mem_filter.2 ⟨hdts, by simpa using hdp⟩
    have h1 := hmin d hdU
    have h2 := hρ n hnts d hd hdts
    omega
  exact List.ne_nil_of_mem hcand

theorem levelOf_eq_candidates {deps : String → List String} {ts placed : List String}
    (h : candidatesOf deps ts placed ≠ []) :
    levelOf deps ts placed = candidatesOf deps ts placed := by
  unfold levelOf
  exact if_neg h

/-- The level list is layered over an initial placed set: every table
of a level has all its dependencies inside the placed set accumulated
from the preceding levels. -/
def Layered (deps : String → List String) : List String → List (List String) → Prop
  | _, [] => True
  | placed, lv :: rest =>
      (∀ n ∈ lv, ∀ d ∈ deps n, d ∈ placed) ∧ Layered deps (placed ++ lv) rest

theorem levelsAux_layered (deps : String → List String) {ts : List String} (hts : ts.Nodup)
    (hclosed : ∀ n ∈ ts, ∀ d ∈ deps n, d ∈ ts)
    (ρ : String → ℕ) (hρ : ∀ n ∈ ts, ∀ d ∈ deps n, d ∈ ts → ρ d < ρ n) :
    ∀ fuel placed, placed.Nodup → (∀ x ∈ placed, x ∈ ts) →
      Layered deps placed (levelsAux deps ts fuel placed) := by
  intro fuel
  induction fuel with
  | zero => intro placed _ _; simp [levelsAux, Layered]
  | succ f ih =>
    intro placed hp hsub
    by_cases hguard : ts.length ≤ placed.length
    · rw [levelsAux_succ_of_ge hguard]; trivial
    · obtain ⟨n0, hn0, hnp0⟩ := exists_unplaced_of_lt hts (show placed.length < ts.length by omega)
      have hcand := candidates_ne_nil_of_acyclic hclosed ρ hρ hn0 hnp0
      have hlv := levelOf_eq_candidates hcand
      obtain ⟨heq, hnd2, hsub2, _⟩ := levelsAux_invariant_step deps hts hp hsub hguard
      rw [levelsAux_succ_of_lt hguard, heq]
      refine ⟨?_, ih (placed ++ levelOf deps ts placed) hnd2 hsub2⟩
      intro n hn d hd
      rw [hlv] at hn
      have hunmet := (mem_candidatesOf.1 hn).2.2
      rw [unmetOf, List.filter_eq_nil_iff] at hunmet
      have := hunmet d hd
      simpa using this

theorem layered_get (deps : String → List String) :
    ∀ (lvs : List (List String)) (placed : List String), Layered deps placed lvs →
      ∀ i (hi : i < lvs.length), ∀ n ∈ lvs[i], ∀ d ∈ deps n,
        d ∈ placed ∨ ∃ j, ∃ hj : j < lvs.length, j < i ∧ d ∈ lvs[j] := by
  intro lvs
  induction lvs with
  | nil => intro placed _ i hi; simp at hi
  | cons lv rest ih =>
    intro placed hlay i hi n hn d hd
    cases i with
    | zero =>
      exact Or.inl (hlay.1 n (by simpa using hn) d hd)
    | succ k =>
      have hk : k < rest.length := by simpa using hi
      have hres := ih (placed ++ lv) hlay.2 k hk n (by simpa using hn) d hd
      rcases hres with hres | ⟨j, hj, hjk, hdj⟩
      · rcases List.mem_append.1 hres with hres | hres
        · exact Or.inl hres
        · exact Or.inr ⟨0, by simp, by omega, by simpa using hres⟩
      · refine Or.inr ⟨j + 1, by simpa using Nat.succ_lt_succ hj, by omega, ?_⟩
        simpa using hdj

theorem findIdx_eq_of_first {α : Type} (p : α → Bool) :
    ∀ (l : List α) (i : ℕ) (hi : i < l.length), p l[i] →
      (∀ j (hj : j < l.length), j < i → ¬ p l[j]) → l.findIdx p = i := by
  intro l
  induction l with
  | nil => intro i hi; simp at hi
  | cons a t ih =>
    intro i hi hp hfirst
    cases i with
    | zero =>
      simp only [List.getElem_cons_zero] at hp
      simp [List.findIdx_cons, hp]
    | succ k =>
      have ha : ¬ p a := by
        have := hfirst 0 (by simp) (by omega)
        simpa using this
      have hk : k < t.length := by simpa using hi
      have hpk : p t[k] := by simpa using hp
      have hfirstk : ∀ j (hj : j < t.length), j < k → ¬ p t[j] := by
        intro j hj hjk
        have := hfirst (j + 1) (by simpa using Nat.succ_lt_succ hj) (by omega)
        simpa using this
      have hab : p a = false := by
        cases hpa : p a
        · rfl
        · exact absurd hpa ha
      simp [List.findIdx_cons, hab, ih k hk hpk hfirstk]

theorem getElem_le_sum : ∀ (l : List ℕ) (i : ℕ) (hi : i < l.length), l[i] ≤ l.sum := by
  intro l
  induction l with
  | nil => intro i hi; simp at hi
  | cons a t ih =>
    intro i hi
    cases i with
    | zero => simp
    | succ k =>
      have hk : k < t.length := by simpa using hi
      have := ih k hk
      simp only [List.getElem_cons_succ, List.sum_cons]
      omega

theorem two_getElem_le_sum : ∀ (l : List ℕ) (i j : ℕ) (hi : i < l.length)
    (hj : j < l.length), i < j → l[i] + l[j] ≤ l.sum := by
  intro l
  induction l with
  | nil => intro i j hi; simp at hi
  | cons a t ih =>
    intro i j hi hj hij
    cases i with
    | zero =>
      cases j with
      | zero => omega
      | succ k =>
        have hk : k < t.length := by simpa using hj
        have := getElem_le_sum t k hk
        simp only [List.getElem_cons_zero, List.getElem_cons_succ, List.sum_cons]
        omega
    | succ m =>
      cases j with
      | zero => omega
      | succ k =>
        have hm : m < t.length := by simpa using hi
        have hk : k < t.length := by simpa using hj
        have := ih m k hm hk (by omega)
        simp only [List.getElem_cons_succ, List.sum_cons]
        omega

/-- If a name occurs in two distinct levels, it is counted at least
twice over the flattened level list. -/
theorem count_ge_two_of_two_levels {lvs : List (List String)} {n : String} {i j : ℕ}
    (hi : i < lvs.length) (hj : j < lvs.length) (hij : i < j)
    (hni : n ∈ lvs[i]) (hnj : n ∈ lvs[j]) : 2 ≤ lvs.flatten.count n := by
  have hcf : lvs.flatten.count n = (lvs.map (List.count n)).sum := by
    simp [List.count_flatten]
  have hilen : i < (lvs.map (List.count n)).length := by simpa using hi
  have hjlen : j < (lvs.map (List.count n)).length := by simpa using hj
  have hsum := two_getElem_le_sum (lvs.map (List.count n)) i j hilen hjlen hij
  have hgi : (lvs.map (List.count n))[i] = lvs[i].count n := by simp
  have hgj : (lvs.map (List.count n))[j] = lvs[j].count n := by simp
  have h1 : 1 ≤ lvs[i].count n := List.count_pos_iff.2 hni
  have h2 : 1 ≤ lvs[j].count n := List.count_pos_iff.2 hnj
  omega

/-- With exactly-once placement, the level index of a name is the
unique level containing it. -/
theorem levelIdx_eq_of_mem {lvs : List (List String)} {n : String} {i : ℕ}
    (hi : i < lvs.length) (hni : n ∈ lvs[i]) (hcount : lvs.flatten.count n = 1) :
    levelIdx lvs n = i := by
  refine findIdx_eq_of_first _ lvs i hi (by simpa using hni) ?_
  intro j hj hji hpj
  have hnj : n ∈ lvs[j] := by simpa using hpj
  have := count_ge_two_of_two_levels hj hi hji hnj hni
  omega

/-- C2 (amended): for every schema model with unique table names whose
dependency graph is acyclic AND whose dependency sets only reference
tables inside the filtered subset, the level assigned to each filtered
table is strictly greater than the level assigned to every table it
directly depends on.  (Without the closedness condition the claim is
false: a foreign key to a table outside the filtered subset leaves an
unresolvable dependency, the loop stalls and force-places the
remaining tables into one shared level; see the counterexample.) -/
theorem levels_strictly_above_deps (ts : List String) (fks : List ForeignKey)
    (hts : ts.Nodup)
    (hclosed : ∀ n ∈ ts, ∀ d ∈ depsOf ts fks n, d ∈ ts)
    (hacy : RankedAcyclic (depsOf ts fks) ts) :
    ∀ a ∈ ts, ∀ d ∈ depsOf ts fks a,
      levelIdx (levelsOf ts fks) d < levelIdx (levelsOf ts fks) a := by
  obtain ⟨ρ, hρ⟩ := hacy
  intro a ha d hd
  have hdts : d ∈ ts := hclosed a ha d hd
  have hcount := (levelAssignment_terminates_and_partitions ts fks hts).2.2.1
  have hlay : Layered (depsOf ts fks) [] (levelsOf ts fks) :=
    levelsAux_layered (depsOf ts fks) hts hclosed ρ hρ ts.length [] List.nodup_nil (by simp)
  have hamem : a ∈ (levelsOf ts fks).flatten := by
    have := hcount a ha
    exact List.count_pos_iff.1 (by omega)
  obtain ⟨lv, hlv, halv⟩ := List.mem_flatten.1 hamem
  obtain ⟨i, hi, hlveq⟩ := List.mem_iff_getElem.1 hlv
  subst hlveq
  have hres := layered_get (depsOf ts fks) (levelsOf ts fks) [] hlay i hi a halv d hd
  rcases hres with hres | ⟨j, hj, hji, hdj⟩
  · simp at hres
  · have hia : levelIdx (levelsOf ts fks) a = i :=
      levelIdx_eq_of_mem hi halv (hcount a ha)
    have hid : levelIdx (levelsOf ts fks) d = j :=
      levelIdx_eq_of_mem hj hdj (hcount d hdts)
    omega

/-- Concrete input refuting C2 as stated: tables alpha and beta, a
foreign key beta → alpha, and a foreign key alpha → ghost whose target
is absent.  The dependency graph restricted to the tables is acyclic
(rank alpha = 0 < 1 = rank beta), yet both tables are force-placed
into level 0, so the level of beta is not strictly greater than the
level of alpha it depends on. -/
def c2Tables : List String := ["alpha", "beta"]

/-- The foreign keys of the C2 counterexample. -/
def c2Fks : List ForeignKey :=
  [⟨"fka", "alpha", "x", "ghost", "id"⟩, ⟨"fkb", "beta", "a_id", "alpha", "id"⟩]

/-- C2 is refuted by the code on the concrete input above: the
dependency graph is acyclic, beta directly depends on alpha, both are
filtered tables, and yet the level of beta does not exceed the level
of alpha (the computed level list is [[alpha, beta]]). -/
theorem levels_strictly_above_deps_counterexample :
    RankedAcyclic (depsOf c2Tables c2Fks) c2Tables
    ∧ "alpha" ∈ depsOf c2Tables c2Fks "beta"
    ∧ levelsOf c2Tables c2Fks = [["alpha", "beta"]]
    ∧ ¬ (levelIdx (levelsOf c2Tables c2Fks) "alpha" <
          levelIdx (levelsOf c2Tables c2Fks) "beta") := by
  refine ⟨⟨fun n => if n = "beta" then 1 else 0, by decide⟩, by decide, by decide, by decide⟩

/-- Witness for the amended C2 at a concrete input with closed,
acyclic dependencies. -/
theorem levels_strictly_above_deps_witness :
    levelIdx (levelsOf ["users", "posts"] [⟨"fk1", "posts", "user_id", "users", "id"⟩]) "users"
      < levelIdx (levelsOf ["users", "posts"]
          [⟨"fk1", "posts", "user_id", "users", "id"⟩]) "posts" := by
  exact levels_strictly_above_deps ["users", "posts"]
    [⟨"fk1", "posts", "user_id", "users", "id"⟩] (by decide)
    (by decide) ⟨fun n => if n = "posts" then 1 else 0, by decide⟩
    "posts" (by decide) "users" (by decide)

/-! ## Connection matrix (CorrelationView.tsx lines 21-40).

A matrix row/column exists exactly for each filtered table name, so
the guard of the foreign-key loop is: both endpoint tables are in the
filtered set.  Each qualifying foreign key increments matrix[s][t] and
matrix[t][s]; for a self-referencing key both increments hit the same
diagonal cell. -/

/-- The guard: matrix[fk.sourceTable] exists and
matrix[fk.sourceTable][fk.targetTable] is defined. -/
def fkInSet (ts : List String) (fk : ForeignKey) : Bool :=
  ts.contains fk.sourceTable && ts.contains fk.targetTable

/-- The two increments performed for one qualifying foreign key. -/
def matrixStep (M : String → String → ℕ) (fk : ForeignKey) : String → String → ℕ :=
  fun a b =>
    M a b + (if a = fk.sourceTable ∧ b = fk.targetTable then 1 else 0)
      + (if a = fk.targetTable ∧ b = fk.sourceTable then 1 else 0)

/-- The foreign-key loop, starting from a given matrix. -/
def connFold (ts : List String) (init : String → String → ℕ)
    (fks : List ForeignKey) : String → String → ℕ :=
  fks.foldl (fun M fk => if fkInSet ts fk then matrixStep M fk else M) init

/-- The connection matrix of CorrelationView (all cells start at 0). -/
def connMatrix (ts : List String) (fks : List ForeignKey) : String → String → ℕ :=
  connFold ts (fun _ _ => 0) fks

/-- The contribution of a single qualifying foreign key to a cell. -/
def unitM (fk : ForeignKey) : String → String → ℕ :=
  fun a b =>
    (if a = fk.sourceTable ∧ b = fk.targetTable then 1 else 0)
      + (if a = fk.targetTable ∧ b = fk.sourceTable then 1 else 0)

/-- The sum of M[a][b] over ordered index pairs a before b of the
filtered table list (the unordered pairs a < b). -/
def sumPairs (M : String → String → ℕ) : List String → ℕ
  | [] => 0
  | a :: rest => (rest.map (M a)).sum + sumPairs M rest

theorem matrixStep_eq (M : String → String → ℕ) (fk : ForeignKey) (a b : String) :
    matrixStep M fk a b = M a b + unitM fk a b := by
  simp [matrixStep, unitM, Nat.add_assoc]

theorem connFold_add (ts : List String) :
    ∀ (fks : List ForeignKey) (init : String → String → ℕ) (a b : String),
      connFold ts init fks a b = init a b + connFold ts (fun _ _ => 0) fks a b := by
  intro fks
  induction fks with
  | nil => intro init a b; simp [connFold]
  | cons fk rest ih =>
    intro init a b
    by_cases hin : fkInSet ts fk
    · have h1 : connFold ts init (fk :: rest) a b =
          connFold ts (matrixStep init fk) rest a b := by
        simp [connFold, hin]
      have h2 : connFold ts (fun _ _ => 0) (fk :: rest) a b =
          connFold ts (matrixStep (fun _ _ => 0) fk) rest a b := by
        simp [connFold, hin]
      rw [h1, h2, ih (matrixStep init fk) a b,
        ih (matrixStep (fun _ _ => 0) fk) a b, matrixStep_eq, matrixStep_eq]
      simp [Nat.add_assoc, Nat.add_comm, Nat.add_left_comm]
    · have h1 : connFold ts init (fk :: rest) a b = connFold ts init rest a b := by
        simp [connFold, hin]
      have h2 : connFold ts (fun _ _ => 0) (fk :: rest) a b =
          connFold ts (fun _ _ => 0) rest a b := by
        simp [connFold, hin]
      rw [h1, h2, ih init a b]

theorem connMatrix_cons (ts : List String) (fk : ForeignKey) (fks : List ForeignKey)
    (a b : String) :
    connMatrix ts (fk :: fks) a b =
      (if fkInSet ts fk then unitM fk a b else 0) + connMatrix ts fks a b := by
  by_cases hin : fkInSet ts fk
  · have h1 : connMatrix ts (fk :: fks) a b =
        connFold ts (matrixStep (fun _ _ => 0) fk) fks a b := by
      simp [connMatrix, connFold, hin]
    rw [h1, connFold_add ts fks (matrixStep (fun _ _ => 0) fk) a b, matrixStep_eq]
    simp [hin, connMatrix]
  · simp [connMatrix, connFold, hin]

theorem unitM_symm (fk : ForeignKey) (a b : String) : unitM fk a b = unitM fk b a := by
  unfold unitM
  by_cases hst : fk.sourceTable = fk.targetTable
  · simp [hst]
    by_cases hP : a = fk.targetTable ∧ b = fk.targetTable
    · have hP2 : b = fk.targetTable ∧ a = fk.targetTable := ⟨hP.2, hP.1⟩
      simp [hP, hP2]
    · have hP2 : ¬ (b = fk.targetTable ∧ a = fk.targetTable) := fun h => hP ⟨h.2, h.1⟩
      simp [hP, hP2]
  have hst2 : ¬ fk.targetTable = fk.sourceTable := fun h => hst h.symm
  by_cases hP : a = fk.sourceTable ∧ b = fk.targetTable
  · have hP2 : b = fk.targetTable ∧ a = fk.sourceTable := ⟨hP.2, hP.1⟩
    by_cases hQ : a = fk.targetTable ∧ b = fk.sourceTable
    · exact absurd (hP.1.symm.trans hQ.1) hst
    · have hQ2 : ¬ (b = fk.sourceTable ∧ a = fk.targetTable) := fun h => hQ ⟨h.2, h.1⟩
      simp [hP, hP2, hQ, hQ2, hst, hst2]
  · have hP2 : ¬ (b = fk.targetTable ∧ a = fk.sourceTable) := fun h => hP ⟨h.2, h.1⟩
    by_cases hQ : a = fk.targetTable ∧ b = fk.sourceTable
    · have hQ2 : b = fk.sourceTable ∧ a = fk.targetTable := ⟨hQ.2, hQ.1⟩
      simp [hP, hP2, hQ, hQ2, hst, hst2]
    · have hQ2 : ¬ (b = fk.sourceTable ∧ a = fk.targetTable) := fun h => hQ ⟨h.2, h.1⟩
      simp [hP, hP2, hQ, hQ2, hst, hst2]

theorem connMatrix_symm (ts : List String) (fks : List ForeignKey) (a b : String) :
    connMatrix ts fks a b = connMatrix ts fks b a := by
  induction fks with
  | nil => rfl
  | cons fk rest ih =>
    rw [connMatrix_cons, connMatrix_cons, ih, unitM_symm]

theorem sum_map_add {α : Type} (f g : α → ℕ) :
    ∀ l : List α, (l.map (fun x => f x + g x)).sum = (l.map f).sum + (l.map g).sum := by
  intro l
  induction l with
  | nil => rfl
  | cons a t ih => simp [ih]; omega

theorem sumPairs_add (M1 M2 : String → String → ℕ) :
    ∀ ts : List String,
      sumPairs (fun a b => M1 a b + M2 a b) ts = sumPairs M1 ts + sumPairs M2 ts := by
  intro ts
  induction ts with
  | nil => rfl
  | cons a rest ih =>
    simp only [sumPairs, ih, sum_map_add (M1 a) (M2 a) rest]
    omega

theorem sumPairs_zero : ∀ ts : List String, sumPairs (fun _ _ => 0) ts = 0 := by
  intro ts
  induction ts with
  | nil => rfl
  | cons a rest ih => simp [sumPairs, ih]

theorem sum_map_indicator (t : String) :
    ∀ l : List String, (l.map (fun b => if b = t then 1 else 0)).sum = l.count t := by
  intro l
  induction l with
  | nil => rfl
  | cons a rest ih =>
    simp only [List.map_cons, List.sum_cons, ih, List.count_cons]
    by_cases h : a = t
    · simp [h]
      omega
    · have h2 : ¬ ((t == a) = true) := by
        simp only [beq_iff_eq]
        exact fun hc => h hc.symm
      simp [h, h2]

theorem sumPairs_unit_of_not_mem (fk : ForeignKey) :
    ∀ l : List String, fk.sourceTable ∉ l → sumPairs (unitM fk) l = 0 := by
  intro l
  induction l with
  | nil => intro _; rfl
  | cons a rest ih =>
    intro hs
    have has : a ≠ fk.sourceTable := fun h => hs (h ▸ List.mem_cons_self a rest)
    have hrest : fk.sourceTable ∉ rest := fun h => hs (List.mem_cons_of_mem a h)
    simp only [sumPairs, ih hrest]
    have hmap : (rest.map (unitM fk a)).sum = 0 := by
      rw [List.sum_eq_zero]
      intro x hx
      obtain ⟨b, hb, hbeq⟩ := List.mem_map.1 hx
      subst hbeq
      have h1 : ¬ (a = fk.sourceTable ∧ b = fk.targetTable) := fun h => has h.1
      by_cases h2 : a = fk.targetTable ∧ b = fk.sourceTable
      · exact absurd h2.2 (fun h => hrest (h ▸ hb))
      · simp [unitM, h1, h2]
    omega

theorem sumPairs_unit_of_not_mem_target (fk : ForeignKey) :
    ∀ l : List String, fk.targetTable ∉ l → sumPairs (unitM fk) l = 0 := by
  intro l
  induction l with
  | nil => intro _; rfl
  | cons a rest ih =>
    intro ht
    have hat : a ≠ fk.targetTable := fun h => ht (h ▸ List.mem_cons_self a rest)
    have hrest : fk.targetTable ∉ rest := fun h => ht (List.mem_cons_of_mem a h)
    simp only [sumPairs, ih hrest]
    have hmap : (rest.map (unitM fk a)).sum = 0 := by
      rw [List.sum_eq_zero]
      intro x hx
      obtain ⟨b, hb, hbeq⟩ := List.mem_map.1 hx
      subst hbeq
      have h2 : ¬ (a = fk.targetTable ∧ b = fk.sourceTable) := fun h => hat h.1
      by_cases h1 : a = fk.sourceTable ∧ b = fk.targetTable
      · exact absurd h1.2 (fun h => hrest (h ▸ hb))
      · simp [unitM, h1, h2]
    omega

theorem sumPairs_unit_of_mem (fk : ForeignKey) :
    ∀ ts : List String, ts.Nodup → fk.sourceTable ∈ ts → fk.targetTable ∈ ts →
      fk.sourceTable ≠ fk.targetTable → sumPairs (unitM fk) ts = 1 := by
  intro ts
  induction ts with
  | nil => intro _ hs; simp at hs
  | cons a rest ih =>
    intro hnd hs ht hst
    have hts : ¬ fk.targetTable = fk.sourceTable := fun h => hst h.symm
    rcases List.nodup_cons.1 hnd with ⟨hanr, hrnd⟩
    by_cases has : a = fk.sourceTable
    · have hat : ¬ a = fk.targetTable := by rw [has]; exact hst
      have htrest : fk.targetTable ∈ rest := by
        rcases List.mem_cons.1 ht with h | h
        · exact absurd h.symm hat
        · exact h
      have hmap : (rest.map (unitM fk a)).sum = rest.count fk.targetTable := by
        rw [← sum_map_indicator fk.targetTable rest]
        congr 1
        apply List.map_congr_left
        intro b _
        have h2 : ¬ (a = fk.targetTable ∧ b = fk.sourceTable) := fun h => hat h.1
        by_cases h1 : b = fk.targetTable
        · simp [unitM, has, h1, h2, hst, hts]
        · simp [unitM, has, h1, h2, hst, hts]
      have hcnt : rest.count fk.targetTable = 1 := List.count_eq_one_of_mem hrnd htrest
      have hzero : sumPairs (unitM fk) rest = 0 :=
        sumPairs_unit_of_not_mem fk rest (has ▸ hanr)
      simp [sumPairs, hmap, hcnt, hzero]
    · by_cases hat : a = fk.targetTable
      · have hsrest : fk.sourceTable ∈ rest := by
          rcases List.mem_cons.1 hs with h | h
          · exact absurd h.symm has
          · exact h
        have hmap : (rest.map (unitM fk a)).sum = rest.count fk.sourceTable := by
          rw [← sum_map_indicator fk.sourceTable rest]
          congr 1
          apply List.map_congr_left
          intro b _
          have h1 : ¬ (a = fk.sourceTable ∧ b = fk.targetTable) := fun h => has h.1
          by_cases h2 : b = fk.sourceTable
          · simp [unitM, hat, h1, h2, hst, hts]
          · simp [unitM, hat, h1, h2, hst, hts]
        have hcnt : rest.count fk.sourceTable = 1 := List.count_eq_one_of_mem hrnd hsrest
        have hzero : sumPairs (unitM fk) rest = 0 :=
          sumPairs_unit_of_not_mem_target fk rest (hat ▸ hanr)
        simp [sumPairs, hmap, hcnt, hzero]
      · have hsrest : fk.sourceTable ∈ rest := by
          rcases List.mem_cons.1 hs with h | h
          · exact absurd h.symm has
          · exact h
        have htrest : fk.targetTable ∈ rest := by
          rcases List.mem_cons.1 ht with h | h
          · exact absurd h.symm hat
          · exact h
        have hmap : (rest.map (unitM fk a)).sum = 0 := by
          rw [List.sum_eq_zero]
          intro x hx
          obtain ⟨b, hb, hbeq⟩ := List.mem_map.1 hx
          subst hbeq
          have h1 : ¬ (a = fk.sourceTable ∧ b = fk.targetTable) := fun h => has h.1
          have h2 : ¬ (a = fk.targetTable ∧ b = fk.sourceTable) := fun h => hat h.1
          simp [unitM, h1, h2]
        simp [sumPairs, hmap, ih hrnd hsrest htrest hst]

theorem fkInSet_iff {ts : List String} {fk : ForeignKey} :
    fkInSet ts fk = true ↔ fk.sourceTable ∈ ts ∧ fk.targetTable ∈ ts := by
  simp [fkInSet]

theorem connMatrix_diag (ts : List String) :
    ∀ fks : List ForeignKey,
      (∀ fk ∈ fks, fk.sourceTable = fk.targetTable → fk.sourceTable ∉ ts) →
      ∀ x, connMatrix ts fks x x = 0 := by
  intro fks
  induction fks with
  | nil => intro _ x; rfl
  | cons fk rest ih =>
    intro hnoself x
    rw [connMatrix_cons, ih (fun g hg hgs => hnoself g (List.mem_cons_of_mem fk hg) hgs)]
    by_cases hin : fkInSet ts fk
    · have hδ : unitM fk x x = 0 := by
        have hc : ¬ (x = fk.sourceTable ∧ x = fk.targetTable) := by
          rintro ⟨h1, h2⟩
          have hst : fk.sourceTable = fk.targetTable := h1.symm.trans h2
          have hsmem : fk.sourceTable ∈ ts := (fkInSet_iff.1 hin).1
          exact hnoself fk (List.mem_cons_self fk rest) hst hsmem
        have hc2 : ¬ (x = fk.targetTable ∧ x = fk.sourceTable) := fun h => hc ⟨h.2, h.1⟩
        simp [unitM, hc, hc2]
      simp [hin, hδ]
    · simp [hin]

theorem connMatrix_sum (ts : List String) (hts : ts.Nodup) :
    ∀ fks : List ForeignKey,
      (∀ fk ∈ fks, fk.sourceTable = fk.targetTable → fk.sourceTable ∉ ts) →
      sumPairs (connMatrix ts fks) ts = (fks.filter (fkInSet ts)).length := by
  intro fks
  induction fks with
  | nil =>
    intro _
    have h0 : connMatrix ts [] = (fun _ _ => 0) := rfl
    rw [h0, sumPairs_zero]
    rfl
  | cons fk rest ih =>
    intro hnoself
    have hrest := ih (fun g hg hgs => hnoself g (List.mem_cons_of_mem fk hg) hgs)
    have hfn : connMatrix ts (fk :: rest) =
        (fun a b => (if fkInSet ts fk then unitM fk a b else 0) + connMatrix ts rest a b) := by
      funext a b
      exact connMatrix_cons ts fk rest a b
    by_cases hin : fkInSet ts fk
    · have hmem : fk.sourceTable ∈ ts ∧ fk.targetTable ∈ ts := fkInSet_iff.1 hin
      have hst : fk.sourceTable ≠ fk.targetTable := by
        intro hc
        exact hnoself fk (List.mem_cons_self fk rest) hc hmem.1
      have hδ : sumPairs (unitM fk) ts = 1 :=
        sumPairs_unit_of_mem fk ts hts hmem.1 hmem.2 hst
      rw [hfn]
      have hfn2 : (fun a b => (if fkInSet ts fk then unitM fk a b else 0) + connMatrix ts rest a b)
          = (fun a b => unitM fk a b + connMatrix ts rest a b) := by
        funext a b
        simp [hin]
      rw [hfn2, sumPairs_add, hδ, hrest]
      simp [List.filter_cons, hin]
      omega
    · rw [hfn]
      have hfn2 : (fun a b => (if fkInSet ts fk then unitM fk a b else 0) + connMatrix ts rest a b)
          = (fun a b => connMatrix ts rest a b) := by
        funext a b
        simp [hin]
      rw [hfn2]
      have hf : rest.filter (fkInSet ts) = (fk :: rest).filter (fkInSet ts) := by
        simp [List.filter_cons, hin]
      rw [← hf]
      exact hrest

/-- C3 (amended): the connection matrix is symmetric for every input;
and for inputs whose in-set foreign keys are not self-referencing,
every diagonal cell is 0 and the sum of M[a][b] over unordered pairs
a < b of the (duplicate-free) filtered table list equals the number of
foreign keys whose source and target tables are both in the filtered
set.  (As stated the claim is false: a self-referencing foreign key
X → X inside the filtered set makes M[X][X] = 2, not 0, and
contributes to no off-diagonal pair; see the counterexample.) -/
theorem connectionMatrix_properties (ts : List String) (fks : List ForeignKey) :
    (∀ a b, connMatrix ts fks a b = connMatrix ts fks b a)
    ∧ (ts.Nodup →
        (∀ fk ∈ fks, fk.sourceTable = fk.targetTable → fk.sourceTable ∉ ts) →
        (∀ x, connMatrix ts fks x x = 0)
        ∧ sumPairs (connMatrix ts fks) ts = (fks.filter (fkInSet ts)).length) := by
  refine ⟨connMatrix_symm ts fks, fun hts hnoself => ⟨?_, ?_⟩⟩
  · exact connMatrix_diag ts fks hnoself
  · exact connMatrix_sum ts hts fks hnoself

/-- Concrete input refuting C3 as stated: a single table with a
self-referencing foreign key.  The diagonal cell is 2 (not 0) and the
sum over unordered pairs is 0 while one foreign key has both endpoint
tables in the filtered set. -/
theorem connectionMatrix_counterexample :
    connMatrix ["employees"] [⟨"mgr", "employees", "manager_id", "employees", "id"⟩]
        "employees" "employees" = 2
    ∧ sumPairs (connMatrix ["employees"]
        [⟨"mgr", "employees", "manager_id", "employees", "id"⟩]) ["employees"] = 0
    ∧ ([⟨"mgr", "employees", "manager_id", "employees", "id"⟩].filter
        (fkInSet ["employees"])).length = 1 := by
  refine ⟨by decide, by decide, by decide⟩

/-- Witness for the amended C3 at a concrete input. -/
theorem connectionMatrix_properties_witness :
    connMatrix ["users", "posts"] [⟨"fk1", "posts", "user_id", "users", "id"⟩]
        "posts" "users" = 1
    ∧ connMatrix ["users", "posts"] [⟨"fk1", "posts", "user_id", "users", "id"⟩]
        "users" "users" = 0
    ∧ sumPairs (connMatrix ["users", "posts"]
        [⟨"fk1", "posts", "user_id", "users", "id"⟩]) ["users", "posts"] = 1 := by
  have h := connectionMatrix_properties ["users", "posts"]
    [⟨"fk1", "posts", "user_id", "users", "id"⟩]
  have h2 := h.2 (by decide) (by decide)
  refine ⟨by decide, h2.1 "users", ?_⟩
  rw [h2.2]
  decide

/-! ## Layered graph layout wrapper (src/lib/layout-utils.ts,
getLayoutedElements).

The dagre library is external to the repository; its layout result is
modelled as an oracle mapping the built graph configuration (node
sizes and edge list) and a node id to the computed centre coordinates
and stored height.  The frame property of the wrapper holds for every
oracle. -/

/-- A react-flow node: id, position, the data.columnCount field read
by the wrapper, and a type parameter packaging every other field
(data payload, type, and so on), none of which the wrapper touches. -/
structure RFNode (ρ : Type) where
  id : String
  position : ℚ × ℚ
  dataColumnCount : Option ℚ
  rest : ρ

/-- A react-flow edge: the wrapper reads source and target to build
the dagre graph and returns the edge array unchanged. -/
structure RFEdge (ε : Type) where
  source : String
  target : String
  rest : ε

/-- The result of g.node(id) after dagre.layout: centre x, centre y,
and the stored height. -/
structure DagreNodeOut where
  x : ℚ
  y : ℚ
  height : ℚ

/-- The height fed to g.setNode: 60 + columnCount * 28 when
node.data?.columnCount is truthy (a count of 0 is falsy in JS and
falls back to the default), else the default nodeHeight. -/
def dagreNodeHeight {ρ : Type} (nodeHeight : ℚ) (node : RFNode ρ) : ℚ :=
  match node.dataColumnCount with
  | some cc => if cc = 0 then nodeHeight else 60 + cc * 28
  | none => nodeHeight

/-- getLayoutedElements: build the dagre graph (node sizes from the
column count, the given edge pairs, the rank direction), run the
layout oracle, and return the nodes with only their position replaced
(centre minus half extent; n.height || nodeHeight is a JS falsy check)
together with the unchanged input edge array. -/
def getLayoutedElements {ρ ε : Type}
    (dagre : List (String × ℚ × ℚ) → List (String × String) → String → String → DagreNodeOut)
    (nodes : List (RFNode ρ)) (edges : List (RFEdge ε))
    (direction : String) (nodeWidth nodeHeight : ℚ) :
    List (RFNode ρ) × List (RFEdge ε) :=
  let g : String → DagreNodeOut :=
    dagre (nodes.map (fun node => (node.id, nodeWidth, dagreNodeHeight nodeHeight node)))
      (edges.map (fun e => (e.source, e.target))) direction
  let layoutedNodes := nodes.map (fun node =>
    let n := g node.id
    { node with position :=
        (n.x - nodeWidth / 2, n.y - (if n.height = 0 then nodeHeight else n.height) / 2) })
  (layoutedNodes, edges)

/-- C10: for every dagre behaviour, every node list and every edge
list, getLayoutedElements returns the nodes in input order changing
only the position field: the sequences of ids, of data.columnCount
fields and of all remaining fields are preserved unchanged (so each
node keeps every field but position, in input order), and the returned
edges array is the input edges array unchanged. -/
theorem getLayoutedElements_frame {ρ ε : Type}
    (dagre : List (String × ℚ × ℚ) → List (String × String) → String → String → DagreNodeOut)
    (nodes : List (RFNode ρ)) (edges : List (RFEdge ε))
    (direction : String) (nodeWidth nodeHeight : ℚ) :
    (getLayoutedElements dagre nodes edges direction nodeWidth nodeHeight).2 = edges
    ∧ (getLayoutedElements dagre nodes edges direction nodeWidth nodeHeight).1.map (·.id)
        = nodes.map (·.id)
    ∧ (getLayoutedElements dagre nodes edges direction nodeWidth
        nodeHeight).1.map (·.dataColumnCount) = nodes.map (·.dataColumnCount)
    ∧ (getLayoutedElements dagre nodes edges direction nodeWidth nodeHeight).1.map (·.rest)
        = nodes.map (·.rest) := by
  refine ⟨rfl, ?_, ?_, ?_⟩ <;> simp [getLayoutedElements]

/-! ## Force-directed layout (NodeLinkView, src/unnamed/part_002).

Initial placement (lines 43-58): connection counts per filtered
table, a stable sort by descending count, the first table at the
origin and the rest on concentric rings.  The ring geometry is stated
in degrees (the source computes the same angle in radians); the
trigonometric projection to x/y is abstracted by cosine/sine
parameters, which the angle statements do not need. -/

/-- connCount: one slot per filtered table, incremented for every
foreign key whose source (resp. target) it is. -/
def connCount (tables : List TableInfo) (fks : List ForeignKey) (n : String) : ℕ :=
  if n ∈ namesOf tables then
    fks.countP (fun fk => decide (fk.sourceTable = n))
      + fks.countP (fun fk => decide (fk.targetTable = n))
  else 0

/-- The stable descending sort by connection count ([...tables].sort
with comparator connCount[b] - connCount[a]; JS sort is stable, and a
stable sort under a total preorder comparator is exactly insertion
sort with the matching non-strict relation). -/
def sortedByDegree (tables : List TableInfo) (fks : List ForeignKey) : List TableInfo :=
  List.insertionSort
    (fun a b => connCount tables fks b.name ≤ connCount tables fks a.name) tables

/-- ring = Math.ceil(i / 6) for the i-th sorted table (i ≥ 1). -/
def ringOf (i : ℕ) : ℕ := (i + 5) / 6

/-- posInRing = (i - 1) % (ring * 6). -/
def posInRing (i : ℕ) : ℕ := (i - 1) % (ringOf i * 6)

/-- The polar placement of the i-th sorted table (i ≥ 1): ring index,
radius = ring * 280, and the angle in degrees
(posInRing / (ring * 6)) * 360 - 90 (the source value in radians is
this angle times pi / 180). -/
structure RingPlacement where
  ring : ℕ
  radius : ℚ
  angleDeg : ℚ
deriving DecidableEq

/-- The placement computed by the source for index i ≥ 1. -/
def nodePlacement (i : ℕ) : RingPlacement :=
  ⟨ringOf i, (ringOf i : ℚ) * 280,
    (posInRing i : ℚ) / ((ringOf i : ℚ) * 6) * 360 - 90⟩

/-- Modelled from the spec sentence (claim C6): rings hold 6 tables
each, the tables of each ring sit at evenly spaced angles over the
full circle, starting at the top, i.e. the k-th table of a ring
(k = (i-1) mod 6) sits at -90 + k * 60 degrees. -/
def specRingPlacement (i : ℕ) : RingPlacement :=
  ⟨ringOf i, (ringOf i : ℚ) * 280, (((i - 1) % 6 : ℕ) : ℚ) / 6 * 360 - 90⟩

/-- The initial cartesian position of sorted index i, given cosine and
sine evaluated on degrees: the first table at the origin, the others
projected from their polar placement. -/
def initialXY (cosD sinD : ℚ → ℚ) (i : ℕ) : ℚ × ℚ :=
  if i = 0 then (0, 0)
  else (cosD (nodePlacement i).angleDeg * (nodePlacement i).radius,
    sinD (nodePlacement i).angleDeg * (nodePlacement i).radius)

theorem sortedByDegree_head_max (tables : List TableInfo) (fks : List ForeignKey)
    (t0 : TableInfo) (rest : List TableInfo)
    (h : sortedByDegree tables fks = t0 :: rest) :
    ∀ t ∈ tables, connCount tables fks t.name ≤ connCount tables fks t0.name := by
  classical
  haveI htot : IsTotal TableInfo
      (fun a b => connCount tables fks b.name ≤ connCount tables fks a.name) :=
    ⟨fun a b => le_total _ _⟩
  haveI htr : IsTrans TableInfo
      (fun a b => connCount tables fks b.name ≤ connCount tables fks a.name) :=
    ⟨fun a b c hab hbc => le_trans hbc hab⟩
  intro t ht
  have hperm := List.perm_insertionSort
    (fun a b => connCount tables fks b.name ≤ connCount tables fks a.name) tables
  have hsorted := List.sorted_insertionSort
    (fun a b => connCount tables fks b.name ≤ connCount tables fks a.name) tables
  rw [show List.insertionSort
      (fun a b => connCount tables fks b.name ≤ connCount tables fks a.name) tables
    = sortedByDegree tables fks from rfl, h] at hperm hsorted
  have htmem : t ∈ t0 :: rest := hperm.symm.subset ht
  rcases List.mem_cons.1 htmem with hteq | htrest
  · subst hteq; exact le_refl _
  · exact (List.pairwise_cons.1 hsorted).1 t htrest

/-- C6 (amended): the initial force-layout placement puts the single
highest-connection-degree table (the head of the stable descending
sort) at the origin; subsequent tables go to concentric rings of 6
tables each (table indices 6(r-1)+1 .. 6r land on ring r) at strictly
increasing radius 280 * ring; within a ring consecutive tables are
separated by the constant angle 360 / (6 * ring) degrees; and ring 1
matches the claimed placement exactly (evenly spaced over the circle
starting at the top, -90 + 60 * k degrees).  For rings r of 2 or more,
however, the ring has 6r angular slots of which its 6 tables occupy
only 6 consecutive ones, and the ring starts at
360 * (r - 1) / r - 90 degrees, not at the top; see the
counterexample. -/
theorem initialPlacement_rings (tables : List TableInfo) (fks : List ForeignKey) :
    (∀ cosD sinD : ℚ → ℚ, initialXY cosD sinD 0 = (0, 0))
    ∧ (∀ t0 rest, sortedByDegree tables fks = t0 :: rest →
        ∀ t ∈ tables, connCount tables fks t.name ≤ connCount tables fks t0.name)
    ∧ (∀ r i, 1 ≤ r → (6 * (r - 1) + 1 ≤ i ∧ i ≤ 6 * r ↔ 1 ≤ i ∧ ringOf i = r))
    ∧ (∀ i j, 1 ≤ i → ringOf i < ringOf j →
        (nodePlacement i).radius < (nodePlacement j).radius)
    ∧ (∀ i, 1 ≤ i → i ≤ 6 → nodePlacement i = specRingPlacement i)
    ∧ (∀ i, 1 ≤ i → ringOf (i + 1) = ringOf i →
        (nodePlacement (i + 1)).angleDeg
          = (nodePlacement i).angleDeg + 360 / ((ringOf i : ℚ) * 6))
    ∧ (∀ r, 2 ≤ r →
        (nodePlacement (6 * (r - 1) + 1)).angleDeg = 360 * ((r : ℚ) - 1) / r - 90) := by
  refine ⟨fun cosD sinD => rfl, fun t0 rest h => sortedByDegree_head_max tables fks t0 rest h,
    ?_, ?_, ?_, ?_, ?_⟩
  · intro r i hr
    unfold ringOf
    omega
  · intro i j hi hij
    unfold nodePlacement
    simp only
    have : (ringOf i : ℚ) < (ringOf j : ℚ) := by exact_mod_cast hij
    nlinarith
  · intro i h1 h6
    have hr : ringOf i = 1 := by unfold ringOf; omega
    have hp : posInRing i = (i - 1) % 6 := by
      unfold posInRing
      rw [hr]
    simp [nodePlacement, specRingPlacement, hr, hp]
  · intro i h1 hsame
    have hr1 : 1 ≤ ringOf i := by unfold ringOf; omega
    have hbounds : 6 * (ringOf i) - 5 ≤ i ∧ i + 1 ≤ 6 * (ringOf i) := by
      unfold ringOf at hsame ⊢
      omega
    have hp1 : posInRing i = i - 1 := by
      unfold posInRing
      exact Nat.mod_eq_of_lt (by omega)
    have hp2 : posInRing (i + 1) = i := by
      unfold posInRing
      rw [hsame]
      simp only [Nat.add_sub_cancel]
      exact Nat.mod_eq_of_lt (by omega)
    rw [show nodePlacement (i+1) = ⟨ringOf (i+1), (ringOf (i+1) : ℚ) * 280,
        (posInRing (i+1) : ℚ) / ((ringOf (i+1) : ℚ) * 6) * 360 - 90⟩ from rfl]
    rw [show nodePlacement i = ⟨ringOf i, (ringOf i : ℚ) * 280,
        (posInRing i : ℚ) / ((ringOf i : ℚ) * 6) * 360 - 90⟩ from rfl]
    simp only [hsame, hp1, hp2]
    have hc : ((i - 1 : ℕ) : ℚ) = (i : ℚ) - 1 := by
      have : 1 ≤ i := h1
      push_cast [Nat.cast_sub this]
      ring
    rw [hc]
    have hrq : (0 : ℚ) < (ringOf i : ℚ) := by exact_mod_cast hr1
    field_simp
    ring
  · intro r hr
    have hring : ringOf (6 * (r - 1) + 1) = r := by unfold ringOf; omega
    have hpos : posInRing (6 * (r - 1) + 1) = 6 * (r - 1) := by
      unfold posInRing
      rw [hring]
      simp only [Nat.add_sub_cancel]
      exact Nat.mod_eq_of_lt (by omega)
    rw [show nodePlacement (6 * (r - 1) + 1) = ⟨ringOf (6 * (r - 1) + 1),
        (ringOf (6 * (r - 1) + 1) : ℚ) * 280,
        (posInRing (6 * (r - 1) + 1) : ℚ) /
          ((ringOf (6 * (r - 1) + 1) : ℚ) * 6) * 360 - 90⟩ from rfl]
    simp only [hring, hpos]
    have hc : ((6 * (r - 1) : ℕ) : ℚ) = 6 * ((r : ℚ) - 1) := by
      have h1r : 1 ≤ r := by omega
      push_cast [Nat.cast_sub h1r]
      ring
    rw [hc]
    have hrq : (0 : ℚ) < (r : ℚ) := by
      have : 0 < r := by omega
      exact_mod_cast this
    field_simp
    ring

/-- Eight concrete tables realizing sorted index 7. -/
def c6Tables : List TableInfo :=
  ["t1", "t2", "t3", "t4", "t5", "t6", "t7", "t8"].map (fun n => ⟨n, "public", []⟩)

/-- C6 is refuted by the code at the eighth table: with eight filtered
tables (and no foreign keys, so the stable sort keeps input order),
the eighth table is the first table of ring 2, which the claim places
at the top (-90 degrees) but the code places at +90 degrees (slot 6 of
the 12 slots of ring 2). -/
theorem initialPlacement_rings_counterexample :
    sortedByDegree c6Tables [] = c6Tables
    ∧ (nodePlacement 7).angleDeg = 90
    ∧ (specRingPlacement 7).angleDeg = -90
    ∧ nodePlacement 7 ≠ specRingPlacement 7 := by
  have ha : (nodePlacement 7).angleDeg = 90 := by
    norm_num [nodePlacement, ringOf, posInRing]
  have hb : (specRingPlacement 7).angleDeg = -90 := by
    norm_num [specRingPlacement, ringOf]
  refine ⟨by decide, ha, hb, fun h => ?_⟩
  rw [h, hb] at ha
  norm_num at ha

/-- Witness for the amended C6: concrete instances of each
hypothesis-bearing conjunct. -/
theorem initialPlacement_rings_witness :
    initialXY (fun _ => 0) (fun _ => 0) 0 = (0, 0)
    ∧ nodePlacement 3 = specRingPlacement 3
    ∧ (nodePlacement 3).angleDeg = (nodePlacement 2).angleDeg + 360 / ((ringOf 2 : ℚ) * 6)
    ∧ (nodePlacement 7).angleDeg = 360 * ((2 : ℚ) - 1) / 2 - 90 := by
  have h := initialPlacement_rings c6Tables []
  refine ⟨h.1 (fun _ => 0) (fun _ => 0), h.2.2.2.2.1 3 (by decide) (by decide),
    h.2.2.2.2.2.1 2 (by decide) (by decide), ?_⟩
  have h7 := h.2.2.2.2.2.2 2 (by decide)
  simpa using h7

/-! ### The force simulation (NodeLinkView, src/unnamed/part_002
lines 69-118).

Coordinates and velocities are modelled over the rationals, with
Math.sqrt passed in as an abstract function parameter sq (the claim
under consideration — determinism and the fixed iteration budget —
holds for every sq).  The source copies each node into a nodeMap keyed
by id before simulating; node ids are table names and therefore
distinct, so the map is modelled by the node list itself, with
per-link lookups by id. -/

/-- The per-node simulation state (GraphNode). -/
structure SimNode where
  id : String
  table : TableInfo
  x : ℚ
  y : ℚ
  vx : ℚ
  vy : ℚ
  connections : ℕ
deriving DecidableEq

/-- A rendered link (GraphLink). -/
structure GraphLink where
  source : String
  target : String
  label : String
deriving DecidableEq

/-- The index pairs (i, j) with i < j visited by the nested repulsion
loops. -/
def pairIdx (n : ℕ) : List (ℕ × ℕ) :=
  (List.range n).flatMap (fun i => ((List.range n).drop (i + 1)).map (fun j => (i, j)))

/-- One repulsion interaction: push nodes i and j apart with force
10000 / dist^2, dist floored at 1. -/
def repulsionStep (sq : ℚ → ℚ) (ns : List SimNode) (p : ℕ × ℕ) : List SimNode :=
  match ns[p.1]?, ns[p.2]? with
  | some a, some b =>
    let dx := b.x - a.x
    let dy := b.y - a.y
    let dist := max (sq (dx * dx + dy * dy)) 1
    let force := 10000 / (dist * dist)
    let fx := dx / dist * force
    let fy := dy / dist * force
    (ns.set p.1 { a with vx := a.vx - fx, vy := a.vy - fy }).set p.2
      { b with vx := b.vx + fx, vy := b.vy + fy }
  | _, _ => ns

/-- The full pairwise repulsion pass. -/
def repulsionPass (sq : ℚ → ℚ) (ns : List SimNode) : List SimNode :=
  (pairIdx ns.length).foldl (repulsionStep sq) ns

/-- One spring interaction along a link: force (dist - 250) * 0.012
toward the rest length, skipped when either endpoint is missing. -/
def springStep (sq : ℚ → ℚ) (ns : List SimNode) (l : GraphLink) : List SimNode :=
  match ns.find? (fun n => n.id == l.source), ns.find? (fun n => n.id == l.target) with
  | some s, some t =>
    let dx := t.x - s.x
    let dy := t.y - s.y
    let dist := max (sq (dx * dx + dy * dy)) 1
    let force := (dist - 250) * (12 / 1000)
    let fx := dx / dist * force
    let fy := dy / dist * force
    (ns.map (fun n => if n.id = l.source
        then { n with vx := n.vx + fx, vy := n.vy + fy } else n)).map
      (fun n => if n.id = l.target
        then { n with vx := n.vx - fx, vy := n.vy - fy } else n)
  | _, _ => ns

/-- The centering pass: pull every node toward the origin by 0.001 of
its distance. -/
def centerPass (ns : List SimNode) : List SimNode :=
  ns.map (fun n => { n with vx := n.vx - n.x * (1 / 1000), vy := n.vy - n.y * (1 / 1000) })

/-- The integration pass: damp velocities by 0.82, then add them to
positions. -/
def integratePass (ns : List SimNode) : List SimNode :=
  ns.map (fun n =>
    { n with
      vx := n.vx * (82 / 100)
      vy := n.vy * (82 / 100)
      x := n.x + n.vx * (82 / 100)
      y := n.y + n.vy * (82 / 100) })

/-- One discrete simulation step: repulsion over all pairs, springs
over all links, centering, damping and integration — each phase
reading the positions frozen at the start of the step (only velocities
accumulate within a step). -/
def simStep (sq : ℚ → ℚ) (links : List GraphLink) (ns : List SimNode) : List SimNode :=
  integratePass (centerPass (links.foldl (springStep sq) (repulsionPass sq ns)))

/-- The fixed iteration budget. -/
def maxIterations : ℕ := 150

/-- The simulation loop: with iteration counter iter, stop as soon as
maxIterations is reached, otherwise run one step and recurse. -/
def simulateFrom (sq : ℚ → ℚ) (links : List GraphLink) (iter : ℕ) (ns : List SimNode) :
    List SimNode :=
  if maxIterations ≤ iter then ns
  else simulateFrom sq links (iter + 1) (simStep sq links ns)
termination_by maxIterations - iter
decreasing_by simp_all [maxIterations]; omega

/-- The complete simulation run from the initial node state. -/
def simulateRun (sq : ℚ → ℚ) (links : List GraphLink) (ns : List SimNode) : List SimNode :=
  simulateFrom sq links 0 ns

theorem simulateFrom_eq_iterate (sq : ℚ → ℚ) (links : List GraphLink) :
    ∀ k, k ≤ maxIterations → ∀ ns,
      simulateFrom sq links (maxIterations - k) ns = (simStep sq links)^[k] ns := by
  intro k
  induction k with
  | zero =>
    intro _ ns
    rw [simulateFrom]
    simp
  | succ m ih =>
    intro hk ns
    rw [simulateFrom]
    have hlt : ¬ maxIterations ≤ maxIterations - (m + 1) := by
      unfold maxIterations at hk ⊢
      omega
    rw [if_neg hlt]
    have hidx : maxIterations - (m + 1) + 1 = maxIterations - m := by
      unfold maxIterations at hk ⊢
      omega
    rw [hidx, ih (by omega) (simStep sq links ns), ← Function.iterate_succ_apply]

/-- C5: the force simulation is deterministic and runs for exactly the
fixed iteration budget: a run from identical link lists and identical
initial node states yields identical final states (hence identical
final positions for every node), and every run equals the pure step
function iterated exactly maxIterations = 150 times from the initial
state — each iteration is a function of the previous iteration's
state, with positions read from the previous state within each step. -/
theorem forceSimulation_deterministic (sq : ℚ → ℚ) (links1 links2 : List GraphLink)
    (ns1 ns2 : List SimNode) (hl : links1 = links2) (hn : ns1 = ns2) :
    simulateRun sq links1 ns1 = simulateRun sq links2 ns2
    ∧ simulateRun sq links1 ns1 = (simStep sq links1)^[maxIterations] ns1 := by
  subst hl hn
  refine ⟨rfl, ?_⟩
  have h := simulateFrom_eq_iterate sq links1 maxIterations (le_refl _) ns1
  simpa [simulateRun] using h

/-- Witness for C5 at a concrete input. -/
theorem forceSimulation_deterministic_witness :
    simulateRun (fun q => q) [⟨"a", "b", "x → y"⟩]
        [⟨"a", ⟨"a", "public", []⟩, 0, 0, 0, 0, 1⟩]
      = (simStep (fun q => q) [⟨"a", "b", "x → y"⟩])^[maxIterations]
        [⟨"a", ⟨"a", "public", []⟩, 0, 0, 0, 0, 1⟩] :=
  (forceSimulation_deterministic (fun q => q) [⟨"a", "b", "x → y"⟩] [⟨"a", "b", "x → y"⟩]
    [⟨"a", ⟨"a", "public", []⟩, 0, 0, 0, 0, 1⟩]
    [⟨"a", ⟨"a", "public", []⟩, 0, 0, 0, 0, 1⟩] rfl rfl).2

/-! ## Hierarchy builder (HierarchyView.tsx lines 26-61).

parentMap records, for each source table, the target of the first
foreign key (in input order) whose source it is; tables without an
entry are root candidates.  The JS falsy test !parentMap[x] is
modelled as the absence of an entry (table names are assumed
nonempty). -/

/-- The first-found-parent map. -/
def parentMapOf (fks : List ForeignKey) : String → Option String :=
  fks.foldl (fun m fk =>
    if (m fk.sourceTable).isNone then
      fun s => if s = fk.sourceTable then some fk.targetTable else m s
    else m) (fun _ => none)

/-- The root candidates: filtered tables without a parentMap entry. -/
def rootsOf (tables : List TableInfo) (pm : String → Option String) : List TableInfo :=
  tables.filter (fun t => (pm t.name).isNone)

/-- A node of the derived tree. -/
structure TreeNode where
  id : String
  parentId : Option String
  table : TableInfo
deriving DecidableEq

/-- The synthesized virtual root id. -/
def virtualRootId : String := "__root__"

/-- The table payload of the virtual root (no real columns). -/
def virtualRootTable : TableInfo := ⟨"Schema", "public", []⟩

/-- Processing of one table by the tables.forEach loop: skip it when a
node with its name already exists; otherwise attach it to its declared
parent when that parent is a filtered table, and to the virtual root
(or the single real root) when it is not. -/
def treeStep (tables : List TableInfo) (pm : String → Option String)
    (roots : List TableInfo) (nodes : List TreeNode) (t : TableInfo) : List TreeNode :=
  if (nodes.find? (fun n => n.id == t.name)).isSome then nodes
  else
    match pm t.name with
    | some p =>
      if (tables.find? (fun tt => tt.name == p)).isSome then nodes ++ [⟨t.name, some p, t⟩]
      else nodes ++ [⟨t.name, if 1 < roots.length then some virtualRootId
          else (roots.head?).map (·.name), t⟩]
    | none => nodes ++ [⟨t.name, if 1 < roots.length then some virtualRootId
        else (roots.head?).map (·.name), t⟩]

/-- The nodes pushed before the loop: a virtual root with all root
candidates as children when several candidates exist, the single real
root when exactly one does. -/
def treeBase (roots : List TableInfo) : List TreeNode :=
  if 1 < roots.length then
    ⟨virtualRootId, none, virtualRootTable⟩ ::
      roots.map (fun t => ⟨t.name, some virtualRootId, t⟩)
  else
    match roots.head? with
    | some r => [⟨r.name, none, r⟩]
    | none => []

/-- treeData: none when tables exist but no root candidate does
(degenerate case), otherwise the node list built above. -/
def treeData (tables : List TableInfo) (fks : List ForeignKey) : Option (List TreeNode) :=
  if (rootsOf tables (parentMapOf fks)).length = 0 ∧ tables.length ≠ 0 then none
  else some (tables.foldl
    (treeStep tables (parentMapOf fks) (rootsOf tables (parentMapOf fks)))
    (treeBase (rootsOf tables (parentMapOf fks))))

/-- A table whose declared parent is not among the filtered tables. -/
def orphanOf (tables : List TableInfo) (pm : String → Option String) (t : TableInfo) : Bool :=
  match pm t.name with
  | some p => (tables.find? (fun tt => tt.name == p)).isNone
  | none => false

theorem names_inj {tables : List TableInfo} (h : (namesOf tables).Nodup) :
    ∀ a ∈ tables, ∀ b ∈ tables, a.name = b.name → a = b := by
  intro a ha b hb heq
  exact List.inj_on_of_nodup_map h ha hb heq

theorem find?_isSome_iff_mem_ids {acc : List TreeNode} {s : String} :
    ((acc.find? (fun n => n.id == s)).isSome) ↔ ∃ n ∈ acc, n.id = s := by
  rw [List.find?_isSome]
  simp

theorem treeStep_skip {tables : List TableInfo} {pm : String → Option String}
    {roots : List TableInfo} {acc : List TreeNode} {t : TableInfo}
    (h : (acc.find? (fun n => n.id == t.name)).isSome) :
    treeStep tables pm roots acc t = acc := by
  unfold treeStep
  rw [if_pos h]

theorem treeStep_parent {tables : List TableInfo} {pm : String → Option String}
    {roots : List TableInfo} {acc : List TreeNode} {t : TableInfo} {p : String}
    (hno : ¬ (acc.find? (fun n => n.id == t.name)).isSome)
    (hp : pm t.name = some p)
    (hpf : (tables.find? (fun tt => tt.name == p)).isSome) :
    treeStep tables pm roots acc t = acc ++ [⟨t.name, some p, t⟩] := by
  unfold treeStep
  rw [if_neg hno]
  simp only [hp]
  rw [if_pos hpf]

theorem treeStep_orphan {tables : List TableInfo} {pm : String → Option String}
    {roots : List TableInfo} {acc : List TreeNode} {t : TableInfo} {p : String}
    (hno : ¬ (acc.find? (fun n => n.id == t.name)).isSome)
    (hp : pm t.name = some p)
    (hpf : ¬ (tables.find? (fun tt => tt.name == p)).isSome) :
    treeStep tables pm roots acc t = acc ++ [⟨t.name,
      if 1 < roots.length then some virtualRootId else (roots.head?).map (·.name), t⟩] := by
  unfold treeStep
  rw [if_neg hno]
  simp only [hp]
  rw [if_neg hpf]

theorem mem_names_of_find? {tables : List TableInfo} {p : String}
    (hpf : (tables.find? (fun tt => tt.name == p)).isSome) : p ∈ namesOf tables := by
  obtain ⟨x, hxmem, hxp⟩ := List.find?_isSome.1 hpf
  rw [beq_iff_eq] at hxp
  exact hxp ▸ List.mem_map_of_mem (·.name) hxmem

theorem treeFold_filters (tables : List TableInfo) (pm : String → Option String)
    (roots : List TableInfo)
    (hrootsub : ∀ r ∈ roots, r ∈ tables)
    (hvr : virtualRootId ∉ namesOf tables)
    (hnr : ∀ t ∈ tables, t ∉ roots → (pm t.name).isSome)
    (hlen : 1 ≤ roots.length) :
    ∀ (rem : List TableInfo) (acc : List TreeNode),
      (namesOf rem).Nodup →
      (∀ t ∈ rem, t ∈ tables) →
      (∀ t ∈ rem, (((acc.find? (fun n => n.id == t.name)).isSome) ↔ t ∈ roots)) →
      (rem.foldl (treeStep tables pm roots) acc).filter
          (fun n => n.parentId == some virtualRootId)
        = acc.filter (fun n => n.parentId == some virtualRootId)
          ++ (rem.filter (fun t => decide (t ∉ roots) && orphanOf tables pm t
              && decide (1 < roots.length))).map
              (fun t => ⟨t.name, some virtualRootId, t⟩)
      ∧ (rem.foldl (treeStep tables pm roots) acc).filter (fun n => n.parentId == none)
        = acc.filter (fun n => n.parentId == none) := by
  intro rem
  induction rem with
  | nil => intro acc _ _ _; simp
  | cons t rest ih =>
    intro acc hnd hsub hinv
    have hmemt : t ∈ tables := hsub t (List.mem_cons_self t rest)
    have hndr : (namesOf rest).Nodup := (List.nodup_cons.1 hnd).2
    have htnr : t.name ∉ namesOf rest := (List.nodup_cons.1 hnd).1
    have hfold : (t :: rest).foldl (treeStep tables pm roots) acc
        = rest.foldl (treeStep tables pm roots) (treeStep tables pm roots acc t) := rfl
    by_cases ht : t ∈ roots
    · have hskip : treeStep tables pm roots acc t = acc :=
        treeStep_skip ((hinv t (List.mem_cons_self t rest)).2 ht)
      rw [hfold, hskip]
      have hres := ih acc hndr (fun t2 h2 => hsub t2 (List.mem_cons_of_mem t h2))
        (fun t2 h2 => hinv t2 (List.mem_cons_of_mem t h2))
      refine ⟨?_, hres.2⟩
      rw [hres.1]
      simp only [List.filter_cons]
      simp [ht]
    · have hnofind : ¬ ((acc.find? (fun n => n.id == t.name)).isSome) := fun h =>
        ht ((hinv t (List.mem_cons_self t rest)).1 h)
      obtain ⟨p, hp⟩ := Option.isSome_iff_exists.1 (hnr t hmemt ht)
      have hstep : ∃ nd : TreeNode, treeStep tables pm roots acc t = acc ++ [nd]
          ∧ nd.id = t.name
          ∧ ((nd.parentId == some virtualRootId)
              = (orphanOf tables pm t && decide (1 < roots.length)))
          ∧ (nd.parentId == (none : Option String)) = false
          ∧ ((nd.parentId == some virtualRootId) = true →
              nd = ⟨t.name, some virtualRootId, t⟩) := by
        by_cases hpf : (tables.find? (fun tt => tt.name == p)).isSome
        · have hpo : orphanOf tables pm t = false := by
            unfold orphanOf
            rw [hp]
            simp only [Option.isNone_eq_false_iff]
            exact hpf
          have hpvr : p ≠ virtualRootId := by
            intro hc
            exact hvr (hc ▸ mem_names_of_find? hpf)
          refine ⟨⟨t.name, some p, t⟩, treeStep_parent hnofind hp hpf, rfl, ?_, rfl, ?_⟩
          · simp [hpo, hpvr]
          · intro hc
            simp only [beq_iff_eq, Option.some_inj] at hc
            exact absurd hc hpvr
        · have hpo : orphanOf tables pm t = true := by
            unfold orphanOf
            rw [hp]
            simp only [Option.isNone_iff_eq_none]
            exact Option.not_isSome_iff_eq_none.1 hpf
          by_cases hmulti : 1 < roots.length
          · refine ⟨⟨t.name, some virtualRootId, t⟩, ?_, rfl, ?_, rfl, fun _ => rfl⟩
            · rw [treeStep_orphan hnofind hp hpf, if_pos hmulti]
            · simp [hpo, hmulti]
          · have hone : roots.length = 1 := by omega
            obtain ⟨r, hr⟩ : ∃ r, roots = [r] := by
              cases roots with
              | nil => simp at hone
              | cons r rs =>
                cases rs with
                | nil => exact ⟨r, rfl⟩
                | cons r2 rs2 => simp at hone
            have hrname : r.name ≠ virtualRootId := by
              intro hc
              exact hvr (hc ▸ List.mem_map_of_mem (·.name)
                (hrootsub r (hr ▸ List.mem_cons_self r [])))
            refine ⟨⟨t.name, some r.name, t⟩, ?_, rfl, ?_, rfl, ?_⟩
            · rw [treeStep_orphan hnofind hp hpf, if_neg hmulti, hr]
              rfl
            · simp [hpo, hmulti, hrname]
            · intro hc
              simp only [beq_iff_eq, Option.some_inj] at hc
              exact absurd hc hrname
      obtain ⟨nd, hnd1, hndid, hndvr, hndnone, hndeq⟩ := hstep
      rw [hfold, hnd1]
      have hinv2 : ∀ t2 ∈ rest,
          (((acc ++ [nd]).find? (fun n => n.id == t2.name)).isSome ↔ t2 ∈ roots) := by
        intro t2 h2
        rw [find?_isSome_iff_mem_ids]
        constructor
        · rintro ⟨n, hn, hneq⟩
          rcases List.mem_append.1 hn with hn | hn
          · exact (hinv t2 (List.mem_cons_of_mem t h2)).1
              (find?_isSome_iff_mem_ids.2 ⟨n, hn, hneq⟩)
          · rw [List.mem_singleton] at hn
            subst hn
            rw [hndid] at hneq
            exact absurd (hneq ▸ List.mem_map_of_mem (·.name) h2) htnr
        · intro h2r
          obtain ⟨n, hn, hneq⟩ := find?_isSome_iff_mem_ids.1
            ((hinv t2 (List.mem_cons_of_mem t h2)).2 h2r)
          exact ⟨n, List.mem_append_left _ hn, hneq⟩
      have hres := ih (acc ++ [nd]) hndr (fun t2 h2 => hsub t2 (List.mem_cons_of_mem t h2))
        hinv2
      refine ⟨?_, ?_⟩
      · rw [hres.1, List.filter_append]
        by_cases hc : (orphanOf tables pm t && decide (1 < roots.length)) = true
        · have hndf : (nd.parentId == some virtualRootId) = true := by
            rw [hndvr]; exact hc
          have hnde : nd = ⟨t.name, some virtualRootId, t⟩ := hndeq hndf
          have hcond : (decide (t ∉ roots) && orphanOf tables pm t
              && decide (1 < roots.length)) = true := by
            simp only [Bool.and_assoc]
            simp [ht, hc]
          have h1 : List.filter (fun n => n.parentId == some virtualRootId) [nd] = [nd] := by
            simp [List.filter_cons, hndf]
          rw [h1]
          simp only [List.filter_cons, hcond, if_true, List.map_cons]
          rw [hnde]
          simp [List.append_assoc]
        · have hndf : (nd.parentId == some virtualRootId) = false := by
            rw [hndvr]
            exact (Bool.not_eq_true _).mp hc
          have hcond : (decide (t ∉ roots) && orphanOf tables pm t
              && decide (1 < roots.length)) = false := by
            simp only [Bool.and_assoc]
            rw [Bool.and_eq_false_iff]
            right
            exact hndvr ▸ hndf
          have h1 : List.filter (fun n => n.parentId == some virtualRootId) [nd] = [] := by
            simp [List.filter_cons, hndf]
          rw [h1]
          simp only [List.filter_cons, hcond, Bool.false_eq_true, if_false]
          simp
      · rw [hres.2, List.filter_append]
        have h1 : List.filter (fun n => n.parentId == none) [nd] = [] := by
          simp [List.filter_cons, hndnone]
        rw [h1]
        simp

theorem treeStep_append (tables : List TableInfo) (pm : String → Option String)
    (roots : List TableInfo) (acc : List TreeNode) (t : TableInfo) :
    ∃ l, treeStep tables pm roots acc t = acc ++ l := by
  unfold treeStep
  by_cases h1 : (acc.find? (fun n => n.id == t.name)).isSome
  · rw [if_pos h1]
    exact ⟨[], (List.append_nil acc).symm⟩
  · rw [if_neg h1]
    cases hpm : pm t.name with
    | some p =>
      simp only [hpm]
      by_cases h2 : (tables.find? (fun tt => tt.name == p)).isSome
      · rw [if_pos h2]
        exact ⟨_, rfl⟩
      · rw [if_neg h2]
        exact ⟨_, rfl⟩
    | none =>
      simp only [hpm]
      exact ⟨_, rfl⟩

theorem treeFold_head (tables : List TableInfo) (pm : String → Option String)
    (roots : List TableInfo) :
    ∀ (rem : List TableInfo) (acc : List TreeNode), acc ≠ [] →
      (rem.foldl (treeStep tables pm roots) acc).head? = acc.head? := by
  intro rem
  induction rem with
  | nil => intro acc _; rfl
  | cons t rest ih =>
    intro acc hacc
    obtain ⟨l, hl⟩ := treeStep_append tables pm roots acc t
    have hfold : (t :: rest).foldl (treeStep tables pm roots) acc
        = rest.foldl (treeStep tables pm roots) (treeStep tables pm roots acc t) := rfl
    rw [hfold, hl, ih (acc ++ l) (by simp [hacc])]
    cases acc with
    | nil => exact absurd rfl hacc
    | cons a rest2 => rfl

theorem treeBase_multi {roots : List TableInfo} (h : 2 ≤ roots.length) :
    treeBase roots = ⟨virtualRootId, none, virtualRootTable⟩ ::
      roots.map (fun t => ⟨t.name, some virtualRootId, t⟩) := by
  unfold treeBase
  rw [if_pos (by omega)]

theorem treeBase_multi_children {roots : List TableInfo} (h : 2 ≤ roots.length) :
    (treeBase roots).filter (fun n => n.parentId == some virtualRootId)
      = roots.map (fun t => ⟨t.name, some virtualRootId, t⟩) := by
  rw [treeBase_multi h, List.filter_cons]
  have h0 : (((none : Option String)) == some virtualRootId) = false := by simp
  simp only [h0, Bool.false_eq_true, if_false]
  rw [List.filter_eq_self]
  intro n hn
  obtain ⟨t, _, ht⟩ := List.mem_map.1 hn
  subst ht
  simp

theorem treeBase_multi_none {roots : List TableInfo} (h : 2 ≤ roots.length) :
    (treeBase roots).filter (fun n => n.parentId == none)
      = [⟨virtualRootId, none, virtualRootTable⟩] := by
  rw [treeBase_multi h, List.filter_cons]
  have h0 : (((none : Option String)) == (none : Option String)) = true := by simp
  simp only [h0, if_true]
  have h1 : (roots.map (fun t => (⟨t.name, some virtualRootId, t⟩ : TreeNode))).filter
      (fun n => n.parentId == none) = [] := by
    rw [List.filter_eq_nil_iff]
    intro n hn
    obtain ⟨t, _, ht⟩ := List.mem_map.1 hn
    subst ht
    simp
  rw [h1]

theorem treeBase_one {r : TableInfo} : treeBase [r] = [⟨r.name, none, r⟩] := by
  unfold treeBase
  rw [if_neg (by simp)]
  rfl

theorem treeBase_inv_multi {tables roots : List TableInfo} (h : 2 ≤ roots.length)
    (hrootsub : ∀ x ∈ roots, x ∈ tables)
    (hvr : virtualRootId ∉ namesOf tables)
    (hinj : ∀ a ∈ tables, ∀ b ∈ tables, a.name = b.name → a = b) :
    ∀ t ∈ tables, (((treeBase roots).find? (fun n => n.id == t.name)).isSome ↔ t ∈ roots) := by
  intro t ht
  rw [find?_isSome_iff_mem_ids, treeBase_multi h]
  constructor
  · rintro ⟨n, hn, hneq⟩
    rcases List.mem_cons.1 hn with hn | hn
    · subst hn
      have hteq : t.name = virtualRootId := hneq.symm
      have htmem : t.name ∈ namesOf tables := List.mem_map_of_mem (·.name) ht
      rw [hteq] at htmem
      exact absurd htmem hvr
    · obtain ⟨r, hr, hrn⟩ := List.mem_map.1 hn
      subst hrn
      have : r = t := hinj r (hrootsub r hr) t ht hneq
      exact this ▸ hr
  · intro htr
    exact ⟨⟨t.name, some virtualRootId, t⟩,
      List.mem_cons_of_mem _ (List.mem_map_of_mem _ htr), rfl⟩

theorem treeBase_inv_one {tables : List TableInfo} {r : TableInfo}
    (hr : r ∈ tables)
    (hinj : ∀ a ∈ tables, ∀ b ∈ tables, a.name = b.name → a = b) :
    ∀ t ∈ tables, (((treeBase [r]).find? (fun n => n.id == t.name)).isSome ↔ t ∈ [r]) := by
  intro t ht
  rw [find?_isSome_iff_mem_ids, treeBase_one]
  constructor
  · rintro ⟨n, hn, hneq⟩
    rw [List.mem_singleton] at hn
    subst hn
    have : r = t := hinj r hr t ht hneq
    rw [List.mem_singleton]
    exact this.symm
  · intro htr
    rw [List.mem_singleton] at htr
    subst htr
    exact ⟨⟨t.name, none, t⟩, List.mem_singleton_self _, rfl⟩

theorem rootsOf_sub {tables : List TableInfo} {pm : String → Option String} :
    ∀ r ∈ rootsOf tables pm, r ∈ tables := by
  intro r hr
  exact (List.mem_filter.1 hr).1

theorem rootsOf_compl {tables : List TableInfo} {pm : String → Option String} :
    ∀ t ∈ tables, t ∉ rootsOf tables pm → (pm t.name).isSome := by
  intro t ht htr
  cases hpm : pm t.name with
  | some p => rfl
  | none =>
    exact absurd (List.mem_filter.2 ⟨ht, by simp [hpm]⟩) htr

/-- Concrete input: tables A, B, C with foreign keys B → A and C → B. -/
def c7aTables : List TableInfo := [⟨"A", "public", []⟩, ⟨"B", "public", []⟩, ⟨"C", "public", []⟩]

/-- The foreign keys B → A and C → B. -/
def c7aFks : List ForeignKey := [⟨"f1", "B", "a_id", "A", "id"⟩, ⟨"f2", "C", "b_id", "B", "id"⟩]

/-- Concrete input: tables A and B with no foreign keys. -/
def c7bTables : List TableInfo := [⟨"A", "public", []⟩, ⟨"B", "public", []⟩]

/-- C7 (amended): when more than one root candidate exists, the
hierarchy builder synthesizes a single virtual root (the head node and
only parentless node) whose children are exactly the root candidates
TOGETHER WITH the tables whose declared first-found parent is not a
filtered table (those orphans are also reparented to the virtual
root); when exactly one root candidate exists it becomes the sole real
root (head node, only parentless node).  In particular, on {A, B, C}
with B → A and C → B the result is the real root A with child B and
grandchild C and no virtual root, and on {A, B} with no foreign keys
the result is a virtual root with children A and B. -/
theorem hierarchyBuilder_roots (tables : List TableInfo) (fks : List ForeignKey)
    (hnodup : (namesOf tables).Nodup)
    (hvr : virtualRootId ∉ namesOf tables) :
    (2 ≤ (rootsOf tables (parentMapOf fks)).length →
      ∃ nodes, treeData tables fks = some nodes
        ∧ nodes.head? = some ⟨virtualRootId, none, virtualRootTable⟩
        ∧ nodes.filter (fun n => n.parentId == none)
            = [⟨virtualRootId, none, virtualRootTable⟩]
        ∧ (nodes.filter (fun n => n.parentId == some virtualRootId)).map (·.id)
            = namesOf (rootsOf tables (parentMapOf fks))
              ++ namesOf (tables.filter (fun t =>
                  decide (t ∉ rootsOf tables (parentMapOf fks))
                    && orphanOf tables (parentMapOf fks) t)))
    ∧ (∀ r, rootsOf tables (parentMapOf fks) = [r] →
      ∃ nodes, treeData tables fks = some nodes
        ∧ nodes.head? = some ⟨r.name, none, r⟩
        ∧ nodes.filter (fun n => n.parentId == none) = [⟨r.name, none, r⟩])
    ∧ treeData c7aTables c7aFks = some [⟨"A", none, ⟨"A", "public", []⟩⟩,
        ⟨"B", some "A", ⟨"B", "public", []⟩⟩, ⟨"C", some "B", ⟨"C", "public", []⟩⟩]
    ∧ treeData c7bTables [] = some [⟨virtualRootId, none, virtualRootTable⟩,
        ⟨"A", some virtualRootId, ⟨"A", "public", []⟩⟩,
        ⟨"B", some virtualRootId, ⟨"B", "public", []⟩⟩] := by
  have hinj := names_inj hnodup
  refine ⟨?_, ?_, by decide, by decide⟩
  · intro h2
    have hguard : ¬ ((rootsOf tables (parentMapOf fks)).length = 0 ∧ tables.length ≠ 0) := by
      rintro ⟨h0, _⟩
      omega
    have hdata : treeData tables fks = some (tables.foldl
        (treeStep tables (parentMapOf fks) (rootsOf tables (parentMapOf fks)))
        (treeBase (rootsOf tables (parentMapOf fks)))) := by
      unfold treeData
      rw [if_neg hguard]
    refine ⟨_, hdata, ?_, ?_, ?_⟩
    · rw [treeFold_head _ _ _ tables _ (by rw [treeBase_multi h2]; simp),
        treeBase_multi h2]
      rfl
    · have hfold := treeFold_filters tables (parentMapOf fks)
        (rootsOf tables (parentMapOf fks)) rootsOf_sub hvr rootsOf_compl (by omega)
        tables (treeBase (rootsOf tables (parentMapOf fks))) hnodup (fun t ht => ht)
        (treeBase_inv_multi h2 rootsOf_sub hvr hinj)
      rw [hfold.2, treeBase_multi_none h2]
    · have hfold := treeFold_filters tables (parentMapOf fks)
        (rootsOf tables (parentMapOf fks)) rootsOf_sub hvr rootsOf_compl (by omega)
        tables (treeBase (rootsOf tables (parentMapOf fks))) hnodup (fun t ht => ht)
        (treeBase_inv_multi h2 rootsOf_sub hvr hinj)
      rw [hfold.1, treeBase_multi_children h2, List.map_append, List.map_map,
        List.map_map]
      congr 1
      have hpred : ∀ t ∈ tables,
          (decide (t ∉ rootsOf tables (parentMapOf fks))
              && orphanOf tables (parentMapOf fks) t
              && decide (1 < (rootsOf tables (parentMapOf fks)).length))
            = (decide (t ∉ rootsOf tables (parentMapOf fks))
                && orphanOf tables (parentMapOf fks) t) := by
        intro t _
        have hd : decide (1 < (rootsOf tables (parentMapOf fks)).length) = true := by
          simp only [decide_eq_true_eq]
          omega
        rw [hd, Bool.and_true]
      rw [List.filter_congr hpred]
      rfl
  · intro r hr
    have hguard : ¬ ((rootsOf tables (parentMapOf fks)).length = 0 ∧ tables.length ≠ 0) := by
      rintro ⟨h0, _⟩
      rw [hr] at h0
      simp at h0
    have hdata : treeData tables fks = some (tables.foldl
        (treeStep tables (parentMapOf fks) (rootsOf tables (parentMapOf fks)))
        (treeBase (rootsOf tables (parentMapOf fks)))) := by
      unfold treeData
      rw [if_neg hguard]
    have hrtab : r ∈ tables := rootsOf_sub r (hr ▸ List.mem_singleton_self r)
    refine ⟨_, hdata, ?_, ?_⟩
    · rw [hr, treeFold_head _ _ _ tables _ (by rw [treeBase_one]; simp), treeBase_one]
      rfl
    · have hfold := treeFold_filters tables (parentMapOf fks)
        (rootsOf tables (parentMapOf fks)) rootsOf_sub hvr rootsOf_compl
        (by rw [hr]; simp)
        tables (treeBase (rootsOf tables (parentMapOf fks))) hnodup (fun t ht => ht)
        (by rw [hr]; exact treeBase_inv_one hrtab hinj)
      rw [hfold.2, hr, treeBase_one, List.filter_cons]
      simp

/-- Concrete input refuting C7 as stated: tables A, B, C where C's
only foreign key points at the absent table D.  Root candidates are A
and B, but the virtual root's children are A, B and C — the orphan C
is also attached to the virtual root, so the children are not exactly
the root candidates. -/
def c7cTables : List TableInfo :=
  [⟨"A", "public", []⟩, ⟨"B", "public", []⟩, ⟨"C", "public", []⟩]

/-- C's foreign key to the absent table D. -/
def c7cFks : List ForeignKey := [⟨"f1", "C", "d_id", "D", "id"⟩]

/-- C7 is refuted by the code on the input above: there are two root
candidates (A and B), so a virtual root is synthesized, but its
children are A, B, C — not exactly the root candidates. -/
theorem hierarchyBuilder_roots_counterexample :
    namesOf (rootsOf c7cTables (parentMapOf c7cFks)) = ["A", "B"]
    ∧ (treeData c7cTables c7cFks).map (fun nodes =>
        (nodes.filter (fun n => n.parentId == some virtualRootId)).map (·.id))
      = some ["A", "B", "C"]
    ∧ ¬ ((treeData c7cTables c7cFks).map (fun nodes =>
        (nodes.filter (fun n => n.parentId == some virtualRootId)).map (·.id))
      = some (namesOf (rootsOf c7cTables (parentMapOf c7cFks)))) := by
  refine ⟨by decide, by decide, by decide⟩

/-- Witness for the amended C7, discharging its hypotheses on the
counterexample input (two root candidates plus an orphan). -/
theorem hierarchyBuilder_roots_witness :
    ∃ nodes, treeData c7cTables c7cFks = some nodes
      ∧ nodes.head? = some ⟨virtualRootId, none, virtualRootTable⟩
      ∧ nodes.filter (fun n => n.parentId == none)
          = [⟨virtualRootId, none, virtualRootTable⟩]
      ∧ (nodes.filter (fun n => n.parentId == some virtualRootId)).map (·.id)
          = namesOf (rootsOf c7cTables (parentMapOf c7cFks))
            ++ namesOf (c7cTables.filter (fun t =>
                decide (t ∉ rootsOf c7cTables (parentMapOf c7cFks))
                  && orphanOf c7cTables (parentMapOf c7cFks) t)) :=
  (hierarchyBuilder_roots c7cTables c7cFks (by decide) (by decide)).1 (by decide)

/-! ## Union-find clustering (GroupedView.tsx lines 14-30 and
SwimlaneView.tsx lines 31-51).

The parent record is a JS object used purely as a dictionary, modelled
as a function into Option (the falsy test !parent[x] is modelled as
the absence of an entry; table names are assumed nonempty).  The
recursive find with path compression is modelled with explicit fuel;
the fuel edgeCount + 1 is always sufficient, because chains start at
length at most one, every union links one root directly under another
root, and path compression only shortens chains — this adequacy is
what the Bnd invariants below establish. -/

/-- One step up the parent chain (a missing entry acts as a self
parent, matching the lazy initialization parent[x] = x). -/
def pstep (p : String → Option String) (x : String) : String := (p x).getD x

/-- x is a root: its parent (present or lazily its own name) is
itself. -/
def IsRootP (p : String → Option String) (x : String) : Prop := pstep p x = x

/-- From x, n parent steps reach a root. -/
def dReach (p : String → Option String) (x : String) (n : ℕ) : Prop :=
  IsRootP p ((pstep p)^[n] x)

/-- Every chain reaches a root within n steps. -/
def Bnd (p : String → Option String) (n : ℕ) : Prop := ∀ x, dReach p x n

/-- The root of x, following parents with the given fuel. -/
def rootN : ℕ → (String → Option String) → String → String
  | 0, _, x => x
  | f+1, p, x => if pstep p x = x then x else rootN f p (pstep p x)

/-- Setting one entry of the parent record. -/
def setP (p : String → Option String) (x v : String) : String → Option String :=
  fun y => if y = x then some v else p y

/-- find with path compression (the source recursion
parent[x] = find(parent[x]) both returns the root and rewrites the
entries along the chain), with explicit fuel; lazy initialization
writes parent[x] = x for a missing entry. -/
def findUF : ℕ → (String → Option String) → String → String × (String → Option String)
  | 0, p, x => (x, p)
  | f+1, p, x =>
    match p x with
    | none => (x, setP p x x)
    | some q =>
      if q = x then (x, p)
      else
        let rp := findUF f p q
        (rp.1, setP rp.2 x rp.1)

/-- union: parent[find(a)] = find(b) (find(a) is evaluated first, then
find(b) on the state left by the first find, then the assignment). -/
def unionUF (F : ℕ) (p : String → Option String) (a b : String) :
    String → Option String :=
  let ra := findUF F p a
  let rb := findUF F ra.2 b
  setP rb.2 ra.1 rb.1

/-- parent[t.name] = t.name for every filtered table. -/
def initParent (tables : List TableInfo) : String → Option String :=
  tables.foldl (fun p t => setP p t.name t.name) (fun _ => none)

/-- foreignKeys.forEach(fk => union(fk.sourceTable, fk.targetTable)). -/
def processUnions (F : ℕ) (fks : List ForeignKey) (p : String → Option String) :
    String → Option String :=
  fks.foldl (fun p fk => unionUF F p fk.sourceTable fk.targetTable) p

/-! ### Root-chasing lemmas -/

theorem pstep_iterate_isRoot {p : String → Option String} {x : String}
    (h : IsRootP p x) : ∀ k, (pstep p)^[k] x = x := by
  intro k
  induction k with
  | zero => rfl
  | succ m ih => rw [Function.iterate_succ_apply, h, ih]

theorem rootN_of_isRoot {p : String → Option String} {x : String}
    (h : IsRootP p x) : ∀ f, rootN f p x = x := by
  intro f
  cases f with
  | zero => rfl
  | succ g =>
    rw [rootN]
    rw [if_pos (show pstep p x = x from h)]

theorem dReach_zero_iff {p : String → Option String} {x : String} :
    dReach p x 0 ↔ IsRootP p x := Iff.rfl

theorem dReach_of_isRoot {p : String → Option String} {x : String}
    (h : IsRootP p x) (n : ℕ) : dReach p x n := by
  unfold dReach
  rw [pstep_iterate_isRoot h]
  exact h

theorem dReach_step {p : String → Option String} {x : String} {n : ℕ}
    (h : dReach p x (n + 1)) : dReach p (pstep p x) n := by
  unfold dReach at h ⊢
  rwa [Function.iterate_succ_apply] at h

theorem dReach_mono {p : String → Option String} {x : String} {n m : ℕ}
    (h : dReach p x n) (hnm : n ≤ m) : dReach p x m := by
  obtain ⟨k, rfl⟩ := Nat.exists_eq_add_of_le hnm
  unfold dReach at h ⊢
  rw [Nat.add_comm, Function.iterate_add_apply, pstep_iterate_isRoot h k]
  exact h

theorem rootN_eq_iterate {p : String → Option String} {x : String} {n : ℕ}
    (h : dReach p x n) : ∀ f, n ≤ f → rootN f p x = (pstep p)^[n] x := by
  induction n generalizing x with
  | zero =>
    intro f _
    exact rootN_of_isRoot h f
  | succ m ih =>
    intro f hf
    by_cases hx : IsRootP p x
    · rw [rootN_of_isRoot hx f, pstep_iterate_isRoot hx]
    · cases f with
      | zero => omega
      | succ g =>
        rw [rootN, if_neg (show ¬ pstep p x = x from hx),
          ih (dReach_step h) g (by omega), Function.iterate_succ_apply]

theorem isRoot_rootN {p : String → Option String} {x : String} {n f : ℕ}
    (h : dReach p x n) (hf : n ≤ f) : IsRootP p (rootN f p x) := by
  rw [rootN_eq_iterate h f hf]
  exact h

theorem rootN_stable {p : String → Option String} {x : String} {n f g : ℕ}
    (h : dReach p x n) (hf : n ≤ f) (hg : n ≤ g) : rootN f p x = rootN g p x := by
  rw [rootN_eq_iterate h f hf, rootN_eq_iterate h g hg]

theorem Bnd.mono {p : String → Option String} {n m : ℕ} (h : Bnd p n) (hnm : n ≤ m) :
    Bnd p m := fun x => dReach_mono (h x) hnm

theorem rootN_step_absorb {p : String → Option String} {x : String} {n F : ℕ}
    (h : dReach p x (n + 1)) (hF : n + 1 ≤ F) :
    rootN F p x = rootN F p (pstep p x) := by
  rw [rootN_eq_iterate h F hF, rootN_eq_iterate (dReach_step h) F (by omega),
    Function.iterate_succ_apply]

theorem pstep_congr {p1 p2 : String → Option String} (h : ∀ y, pstep p1 y = pstep p2 y) :
    ∀ f x, rootN f p1 x = rootN f p2 x := by
  intro f
  induction f with
  | zero => intro x; rfl
  | succ g ih =>
    intro x
    rw [rootN, rootN, h x]
    by_cases hx : pstep p2 x = x
    · rw [if_pos hx, if_pos hx]
    · rw [if_neg hx, if_neg hx, ih]

theorem dReach_congr {p1 p2 : String → Option String} (h : ∀ y, pstep p1 y = pstep p2 y)
    {x : String} {n : ℕ} (hd : dReach p1 x n) : dReach p2 x n := by
  have hiter : ∀ k y, (pstep p1)^[k] y = (pstep p2)^[k] y := by
    intro k
    induction k with
    | zero => intro y; rfl
    | succ m ihm =>
      intro y
      rw [Function.iterate_succ_apply, Function.iterate_succ_apply, h y, ihm]
  unfold dReach IsRootP at hd ⊢
  rw [← hiter n x, ← h ((pstep p1)^[n] x)]
  exact hd

theorem pstep_setP (p : String → Option String) (x v y : String) :
    pstep (setP p x v) y = if y = x then v else pstep p y := by
  unfold pstep setP
  by_cases h : y = x
  · rw [if_pos h, if_pos h]
    rfl
  · rw [if_neg h, if_neg h]

theorem findUF_fst : ∀ (f : ℕ) (p : String → Option String) (x : String),
    (findUF f p x).1 = rootN f p x := by
  intro f
  induction f with
  | zero => intro p x; rfl
  | succ g ih =>
    intro p x
    rw [findUF, rootN]
    cases hx : p x with
    | none =>
      have hr : pstep p x = x := by unfold pstep; rw [hx]; rfl
      rw [if_pos hr]
    | some q =>
      by_cases hq : q = x
      · have hr : pstep p x = x := by unfold pstep; rw [hx]; simpa using hq
        rw [if_pos hr]
        simp [hq]
      · have hr : pstep p x = q := by unfold pstep; rw [hx]; rfl
        have hr2 : ¬ pstep p x = x := by rw [hr]; exact hq
        rw [if_neg hr2, hr]
        dsimp only
        rw [if_neg hq]
        exact ih p q

/-- Redirecting x straight to (one of) its root(s) r preserves every
root and every chain bound. -/
theorem setRoot_preserves {p : String → Option String} {n F : ℕ}
    (hB : Bnd p n) (hnF : n ≤ F) {x r : String}
    (hr : IsRootP p r) (hrx : rootN F p x = r) :
    (∀ y, rootN F (setP p x r) y = rootN F p y) ∧ Bnd (setP p x r) n := by
  have hclaim : ∀ k, k ≤ F → ∀ y, dReach p y k →
      (pstep (setP p x r))^[k] y = (pstep p)^[k] y ∧ dReach (setP p x r) y k := by
    intro k
    induction k with
    | zero =>
      intro _ y hy
      refine ⟨rfl, ?_⟩
      unfold dReach at hy ⊢
      simp only [Function.iterate_zero_apply] at hy ⊢
      unfold IsRootP at hy ⊢
      rw [pstep_setP]
      by_cases hyx : y = x
      · rw [if_pos hyx]
        subst hyx
        rw [rootN_of_isRoot hy F] at hrx
        exact hrx.symm
      · rw [if_neg hyx]
        exact hy
    | succ m ih =>
      intro hk y hy
      by_cases hry : IsRootP p y
      · have hry1 : IsRootP (setP p x r) y := by
          unfold IsRootP
          rw [pstep_setP]
          by_cases hyx : y = x
          · rw [if_pos hyx]
            subst hyx
            rw [rootN_of_isRoot hry F] at hrx
            exact hrx.symm
          · rw [if_neg hyx]
            exact hry
        refine ⟨?_, dReach_of_isRoot hry1 _⟩
        rw [pstep_iterate_isRoot hry, pstep_iterate_isRoot hry1]
      · by_cases hyx : y = x
        · have hxry : ¬ IsRootP p x := by rw [← hyx]; exact hry
          have hrnex : r ≠ x := by
            intro hc
            rw [hc] at hr
            exact hxry hr
          have hstep1 : pstep (setP p x r) x = r := by
            rw [pstep_setP, if_pos rfl]
          have hrroot : IsRootP (setP p x r) r := by
            unfold IsRootP
            rw [pstep_setP, if_neg hrnex]
            exact hr
          have hxreach : dReach p x (m + 1) := by rw [← hyx]; exact hy
          have hlhs : (pstep (setP p x r))^[m + 1] x = r := by
            rw [Function.iterate_succ_apply, hstep1, pstep_iterate_isRoot hrroot]
          have hrhs : (pstep p)^[m + 1] x = r := by
            rw [← rootN_eq_iterate hxreach F (by omega)]
            exact hrx
          constructor
          · rw [hyx, hlhs, hrhs]
          · unfold dReach
            rw [hyx, hlhs]
            exact hrroot
        · have hstep1 : pstep (setP p x r) y = pstep p y := by
            rw [pstep_setP, if_neg hyx]
          have hres := ih (by omega) (pstep p y) (dReach_step hy)
          refine ⟨?_, ?_⟩
          · rw [Function.iterate_succ_apply, Function.iterate_succ_apply, hstep1,
              hres.1]
          · unfold dReach
            rw [Function.iterate_succ_apply, hstep1]
            exact hres.2
  refine ⟨fun y => ?_, fun y => (hclaim n hnF y (hB y)).2⟩
  have h1 := hclaim n hnF y (hB y)
  rw [rootN_eq_iterate (hB y) F hnF, rootN_eq_iterate h1.2 F hnF, h1.1]

/-- find never changes any root and never lengthens chains: each
compression write redirects a chain node straight to its true root. -/
theorem findUF_preserves :
    ∀ (f : ℕ) (p : String → Option String) (x : String) {n F m : ℕ},
      Bnd p n → n ≤ F → dReach p x m → m ≤ f → m ≤ n →
      (∀ y, rootN F (findUF f p x).2 y = rootN F p y) ∧ Bnd (findUF f p x).2 n := by
  intro f
  induction f with
  | zero =>
    intro p x n F m hB hnF hx hmf hmn
    exact ⟨fun y => rfl, hB⟩
  | succ g ih =>
    intro p x n F m hB hnF hx hmf hmn
    rw [findUF]
    cases hpx : p x with
    | none =>
      have hps : ∀ y, pstep (setP p x x) y = pstep p y := by
        intro y
        rw [pstep_setP]
        by_cases hyx : y = x
        · rw [if_pos hyx, hyx]
          unfold pstep
          rw [hpx]
          rfl
        · rw [if_neg hyx]
      exact ⟨fun y => pstep_congr hps F y,
        fun y => dReach_congr (fun z => (hps z).symm) (hB y)⟩
    | some q =>
      by_cases hq : q = x
      · dsimp only
        rw [if_pos hq]
        exact ⟨fun y => rfl, hB⟩
      · dsimp only
        rw [if_neg hq]
        have hpq : pstep p x = q := by unfold pstep; rw [hpx]; rfl
        have hxnr : ¬ IsRootP p x := by unfold IsRootP; rw [hpq]; exact hq
        have hm1 : 1 ≤ m := by
          rcases Nat.eq_zero_or_pos m with hm0 | hm0
          · rw [hm0] at hx
            exact absurd hx hxnr
          · exact hm0
        have hqreach : dReach p q (m - 1) := by
          have hstep := dReach_step (show dReach p x ((m - 1) + 1) by
            rw [Nat.sub_add_cancel hm1]; exact hx)
          rwa [hpq] at hstep
        have hres := ih p q hB hnF hqreach (by omega) (by omega)
        have hfstroot : (findUF g p q).1 = rootN F p x := by
          rw [findUF_fst g p q, rootN_eq_iterate hqreach g (by omega),
            rootN_eq_iterate hx F (by omega),
            show m = (m - 1) + 1 by omega, Function.iterate_succ_apply, hpq]
          congr 1
        have hrootp : IsRootP p (rootN F p x) := isRoot_rootN hx (by omega)
        have hroot2 : IsRootP (findUF g p q).2 (rootN F p x) := by
          have h1 : rootN F (findUF g p q).2 (rootN F p x) = rootN F p x := by
            rw [hres.1]
            exact rootN_of_isRoot hrootp F
          have h2 := isRoot_rootN (hres.2 (rootN F p x)) hnF
          rwa [h1] at h2
        have hroot2b : IsRootP (findUF g p q).2 (findUF g p q).1 := by
          rw [hfstroot]
          exact hroot2
        have hrx2 : rootN F (findUF g p q).2 x = (findUF g p q).1 := by
          rw [hres.1, hfstroot]
        have hset := setRoot_preserves hres.2 hnF hroot2b hrx2
        exact ⟨fun y => by rw [hset.1 y, hres.1 y], hset.2⟩

/-- The first component of find with sufficient fuel is the true
root. -/
theorem findUF_fst_root {f : ℕ} {p : String → Option String} {x : String} {F m : ℕ}
    (hx : dReach p x m) (hmf : m ≤ f) (hmF : m ≤ F) :
    (findUF f p x).1 = rootN F p x := by
  rw [findUF_fst f p x, rootN_eq_iterate hx f hmf, rootN_eq_iterate hx F hmF]

/-- Linking root ra beneath root rb merges the class of ra into the
class of rb and extends chain bounds by one. -/
theorem linkRoot {p : String → Option String} {n F : ℕ} (hB : Bnd p n) (hF : n + 1 ≤ F)
    {ra rb : String} (hra : IsRootP p ra) (hrb : IsRootP p rb) :
    (∀ y, rootN F (setP p ra rb) y
        = if rootN F p y = ra then rb else rootN F p y)
    ∧ Bnd (setP p ra rb) (n + 1) := by
  have hrb1 : IsRootP (setP p ra rb) rb := by
    unfold IsRootP
    rw [pstep_setP]
    by_cases h : rb = ra
    · rw [if_pos h]
    · rw [if_neg h]
      exact hrb
  have hclaim : ∀ k y, dReach p y k →
      ((pstep (setP p ra rb))^[k + 1] y
          = if (pstep p)^[k] y = ra then rb else (pstep p)^[k] y)
      ∧ IsRootP (setP p ra rb) ((pstep (setP p ra rb))^[k + 1] y) := by
    intro k
    induction k with
    | zero =>
      intro y hy
      by_cases hyra : y = ra
      · have h1 : (pstep (setP p ra rb))^[1] y = rb := by
          simp only [Function.iterate_one]
          rw [pstep_setP, if_pos hyra]
        refine ⟨?_, ?_⟩
        · rw [h1]
          simp only [Function.iterate_zero_apply]
          rw [if_pos hyra]
        · rw [h1]
          exact hrb1
      · have h1 : (pstep (setP p ra rb))^[1] y = y := by
          simp only [Function.iterate_one]
          rw [pstep_setP, if_neg hyra]
          exact hy
        refine ⟨?_, ?_⟩
        · rw [h1]
          simp only [Function.iterate_zero_apply]
          rw [if_neg hyra]
        · rw [h1]
          unfold IsRootP
          rw [pstep_setP, if_neg hyra]
          exact hy
    | succ m ih =>
      intro y hy
      by_cases hry : IsRootP p y
      · have hit : (pstep p)^[m + 1] y = y := pstep_iterate_isRoot hry (m + 1)
        by_cases hyra : y = ra
        · have h1 : pstep (setP p ra rb) y = rb := by
            rw [pstep_setP, if_pos hyra]
          have h2 : (pstep (setP p ra rb))^[m + 2] y = rb := by
            rw [show m + 2 = (m + 1) + 1 by omega, Function.iterate_succ_apply, h1,
              pstep_iterate_isRoot hrb1]
          refine ⟨?_, ?_⟩
          · rw [h2, hit, if_pos hyra]
          · rw [h2]
            exact hrb1
        · have hroot1 : IsRootP (setP p ra rb) y := by
            unfold IsRootP
            rw [pstep_setP, if_neg hyra]
            exact hry
          have h2 : (pstep (setP p ra rb))^[m + 2] y = y := pstep_iterate_isRoot hroot1 _
          refine ⟨?_, ?_⟩
          · rw [h2, hit, if_neg hyra]
          · rw [h2]
            exact hroot1
      · have hyra : y ≠ ra := by
          intro hc
          rw [hc] at hry
          exact hry hra
        have hstep1 : pstep (setP p ra rb) y = pstep p y := by
          rw [pstep_setP, if_neg hyra]
        have hres := ih (pstep p y) (dReach_step hy)
        refine ⟨?_, ?_⟩
        · rw [show m + 1 + 1 = (m + 1) + 1 by rfl, Function.iterate_succ_apply, hstep1,
            hres.1, Function.iterate_succ_apply]
        · rw [Function.iterate_succ_apply, hstep1]
          exact hres.2
  constructor
  · intro y
    have h1 := hclaim n y (hB y)
    have hd1 : dReach (setP p ra rb) y (n + 1) := by
      unfold dReach
      exact h1.2
    rw [rootN_eq_iterate hd1 F hF, rootN_eq_iterate (hB y) F (by omega), h1.1]
  · intro y
    unfold dReach
    exact (hclaim n y (hB y)).2

/-- The effect of one union on the root function: the class of a is
merged into the class of b. -/
theorem unionUF_root {F n : ℕ} {p : String → Option String} (hB : Bnd p n)
    (hnF : n + 1 ≤ F) (a b : String) :
    (∀ y, rootN F (unionUF F p a b) y
        = if rootN F p y = rootN F p a then rootN F p b else rootN F p y)
    ∧ Bnd (unionUF F p a b) (n + 1) := by
  have hfa := findUF_preserves F p a (n := n) (F := F) (m := n) hB (by omega) (hB a)
    (by omega) (le_refl n)
  have hfa1 : (findUF F p a).1 = rootN F p a :=
    findUF_fst_root (hB a) (by omega) (by omega)
  have hfb := findUF_preserves F (findUF F p a).2 b (n := n) (F := F) (m := n) hfa.2
    (by omega) (hfa.2 b) (by omega) (le_refl n)
  have hfb1 : (findUF F (findUF F p a).2 b).1 = rootN F (findUF F p a).2 b :=
    findUF_fst_root (hfa.2 b) (by omega) (by omega)
  have hroots2 : ∀ y, rootN F (findUF F (findUF F p a).2 b).2 y = rootN F p y := by
    intro y
    rw [hfb.1 y, hfa.1 y]
  have hraroot : IsRootP p (rootN F p a) := isRoot_rootN (hB a) (by omega)
  have hrbroot : IsRootP p (rootN F p b) := isRoot_rootN (hB b) (by omega)
  have hra2 : IsRootP (findUF F (findUF F p a).2 b).2 (rootN F p a) := by
    have h1 : rootN F (findUF F (findUF F p a).2 b).2 (rootN F p a) = rootN F p a := by
      rw [hroots2]
      exact rootN_of_isRoot hraroot F
    have h2 := isRoot_rootN (hfb.2 (rootN F p a)) (show n ≤ F by omega)
    rwa [h1] at h2
  have hrb2 : IsRootP (findUF F (findUF F p a).2 b).2 (rootN F p b) := by
    have h1 : rootN F (findUF F (findUF F p a).2 b).2 (rootN F p b) = rootN F p b := by
      rw [hroots2]
      exact rootN_of_isRoot hrbroot F
    have h2 := isRoot_rootN (hfb.2 (rootN F p b)) (show n ≤ F by omega)
    rwa [h1] at h2
  have hueq : unionUF F p a b
      = setP (findUF F (findUF F p a).2 b).2 (rootN F p a) (rootN F p b) := by
    unfold unionUF
    show setP (findUF F (findUF F p a).2 b).2 (findUF F p a).1 (findUF F (findUF F p a).2 b).1
      = setP (findUF F (findUF F p a).2 b).2 (rootN F p a) (rootN F p b)
    rw [hfa1, hfb1, hfa.1 b]
  have hlink := linkRoot hfb.2 hnF hra2 hrb2
  rw [hueq]
  constructor
  · intro y
    rw [hlink.1 y, hroots2 y]
  · exact hlink.2

/-! ### Connectivity by foreign-key edges, and the grouping loops
(GroupedView.tsx lines 14-40 and SwimlaneView.tsx lines 31-61) -/

/-- An undirected foreign-key edge of the list fks between x and y. -/
def fkEdge (fks : List ForeignKey) (x y : String) : Prop :=
  ∃ fk ∈ fks, (fk.sourceTable = x ∧ fk.targetTable = y)
    ∨ (fk.sourceTable = y ∧ fk.targetTable = x)

/-- x and y are joined by some undirected path of foreign-key edges
of fks. -/
def Connected (fks : List ForeignKey) : String → String → Prop :=
  Relation.ReflTransGen (fkEdge fks)

/-- The effect of one union on an equivalence: the classes of s and t
are merged. -/
def connStep (s t : String) (R : String → String → Prop) : String → String → Prop :=
  fun x y => R x y ∨ (R x s ∧ R t y) ∨ (R x t ∧ R s y)

/-- The effect of a list of unions, processed left to right. -/
def connExt : List ForeignKey → (String → String → Prop) → String → String → Prop
  | [], R => R
  | fk :: rest, R => connExt rest (connStep fk.sourceTable fk.targetTable R)

/-- Both endpoint tables of fk are among the filtered tables
(SwimlaneView.tsx lines 41-44). -/
def bothInSet (tables : List TableInfo) (fk : ForeignKey) : Bool :=
  (tables.find? (fun t => t.name == fk.sourceTable)).isSome
    && (tables.find? (fun t => t.name == fk.targetTable)).isSome

/-- SwimlaneView's union loop: union(fk.sourceTable, fk.targetTable)
only when both endpoints are filtered tables. -/
def processUnionsSw (F : ℕ) (tables : List TableInfo) (fks : List ForeignKey)
    (p : String → Option String) : String → Option String :=
  fks.foldl (fun p fk =>
    if bothInSet tables fk then unionUF F p fk.sourceTable fk.targetTable else p) p

/-- Adequate find fuel for a union-find run over fks: each union
lengthens some chain by at most one. -/
def ufFuel (fks : List ForeignKey) : ℕ := fks.length + 1

/-- clusters[root].push(t), creating the entry on first use; a JS
object keyed by non-numeric strings enumerates in insertion order. -/
def addToGroups (gs : List (String × List TableInfo)) (k : String) (t : TableInfo) :
    List (String × List TableInfo) :=
  if k ∈ gs.map Prod.fst then
    gs.map (fun g => if g.1 = k then (g.1, g.2 ++ [t]) else g)
  else gs ++ [(k, [t])]

/-- The tables.forEach grouping loop: const root = find(t.name) (with
path compression mutating parent), then clusters[root].push(t). -/
def collectGroups (F : ℕ) : List TableInfo → (String → Option String) →
    List (String × List TableInfo) → List (String × List TableInfo)
  | [], _, gs => gs
  | t :: ts, p, gs =>
    collectGroups F ts (findUF F p t.name).2 (addToGroups gs (findUF F p t.name).1 t)

/-- The grouping loop with the root of each table precomputed by a
pure key function (the compression states turn out not to matter). -/
def groupsPure (key : TableInfo → String) (ts : List TableInfo)
    (gs : List (String × List TableInfo)) : List (String × List TableInfo) :=
  ts.foldl (fun gs t => addToGroups gs (key t) t) gs

/-- SwimlaneView lanes before sorting: parent seeded with the filtered
tables, unions over the endpoint-checked foreign keys, then grouping. -/
def swimlaneGroups (tables : List TableInfo) (fks : List ForeignKey) :
    List (String × List TableInfo) :=
  collectGroups (ufFuel fks) tables
    (processUnionsSw (ufFuel fks) tables fks (initParent tables)) []

/-- GroupedView clusters before naming and sorting: parent seeded with
schema.tables, unions over ALL foreign keys (no endpoint check). -/
def groupedClusters (schema : SchemaData) : List (String × List TableInfo) :=
  collectGroups (ufFuel schema.foreignKeys) schema.tables
    (processUnions (ufFuel schema.foreignKeys) schema.foreignKeys
      (initParent schema.tables)) []

/-- GroupedView cluster display name (root group (n tables) for a
multi-table cluster, else the root itself). -/
def clusterName (root : String) (ts : List TableInfo) : String :=
  if 1 < ts.length then root ++ " group (" ++ toString ts.length ++ " tables)" else root

/-- GroupedView's named cluster records, before sorting. -/
def clustersGV (schema : SchemaData) : List (String × List TableInfo) :=
  (groupedClusters schema).map (fun g => (clusterName g.1 g.2, g.2))

/-- .sort((a, b) => b.<members>.length - a.<members>.length): JS sort
is stable, so it is a stable sort by descending member count. -/
def sortByLen (l : List (String × List TableInfo)) : List (String × List TableInfo) :=
  l.insertionSort (fun a b => b.2.length ≤ a.2.length)

/-- GroupedView's final cluster list. -/
def sortedClustersGV (schema : SchemaData) : List (String × List TableInfo) :=
  sortByLen (clustersGV schema)

/-- SwimlaneView's lane order (the subsequent display map keeps the
order and only decorates each lane). -/
def sortedLanesSw (tables : List TableInfo) (fks : List ForeignKey) :
    List (String × List TableInfo) :=
  sortByLen (swimlaneGroups tables fks)

/-- u is recorded in the group keyed c. -/
def memG (gs : List (String × List TableInfo)) (c : String) (u : TableInfo) : Prop :=
  ∃ g ∈ gs, g.1 = c ∧ u ∈ g.2

/-- The keys of a group list. -/
def keysOfG (gs : List (String × List TableInfo)) : List String := gs.map Prod.fst

theorem initParent_pstep (tables : List TableInfo) :
    ∀ x, pstep (initParent tables) x = x := by
  unfold initParent
  have key : ∀ (ts : List TableInfo) (p : String → Option String),
      (∀ x, pstep p x = x) →
      ∀ x, pstep (ts.foldl (fun p t => setP p t.name t.name) p) x = x := by
    intro ts
    induction ts with
    | nil => intro p hp x; exact hp x
    | cons t ts ih =>
      intro p hp x
      simp only [List.foldl_cons]
      refine ih (setP p t.name t.name) ?_ x
      intro y
      rw [pstep_setP]
      by_cases hy : y = t.name
      · rw [if_pos hy]; exact hy.symm
      · rw [if_neg hy]; exact hp y
  intro x
  exact key tables (fun _ => none) (fun x => rfl) x

theorem initParent_Bnd (tables : List TableInfo) : Bnd (initParent tables) 0 := by
  intro x
  unfold dReach
  simp only [Function.iterate_zero_apply]
  exact initParent_pstep tables x

theorem rootN_initParent (tables : List TableInfo) (F : ℕ) (x : String) :
    rootN F (initParent tables) x = x :=
  rootN_of_isRoot (initParent_pstep tables x) F

/-- One union turns the root-equality relation R into connStep s t R. -/
theorem unionUF_connStep {F n : ℕ} {p : String → Option String} (hB : Bnd p n)
    (hnF : n + 1 ≤ F) (s t : String) (R : String → String → Prop)
    (hR : ∀ x y, rootN F p x = rootN F p y ↔ R x y) :
    (∀ x y, rootN F (unionUF F p s t) x = rootN F (unionUF F p s t) y
        ↔ connStep s t R x y)
    ∧ Bnd (unionUF F p s t) (n + 1) := by
  have hu := unionUF_root hB hnF s t
  refine ⟨?_, hu.2⟩
  intro x y
  rw [hu.1 x, hu.1 y]
  unfold connStep
  rw [← hR x y, ← hR x s, ← hR t y, ← hR x t, ← hR s y]
  by_cases hx : rootN F p x = rootN F p s
  · rw [if_pos hx]
    by_cases hy : rootN F p y = rootN F p s
    · rw [if_pos hy]
      constructor
      · intro _
        exact Or.inl (hx.trans hy.symm)
      · intro _
        rfl
    · rw [if_neg hy]
      constructor
      · intro h
        exact Or.inr (Or.inl ⟨hx, h⟩)
      · rintro (h | ⟨h1, h2⟩ | ⟨h1, h2⟩)
        · exact absurd (h.symm.trans hx) hy
        · exact h2
        · exact absurd h2.symm hy
  · rw [if_neg hx]
    by_cases hy : rootN F p y = rootN F p s
    · rw [if_pos hy]
      constructor
      · intro h
        exact Or.inr (Or.inr ⟨h, hy.symm⟩)
      · rintro (h | ⟨h1, h2⟩ | ⟨h1, h2⟩)
        · exact absurd (h.trans hy) hx
        · exact absurd h1 hx
        · exact h1
    · rw [if_neg hy]
      constructor
      · intro h
        exact Or.inl h
      · rintro (h | ⟨h1, h2⟩ | ⟨h1, h2⟩)
        · exact h
        · exact absurd h1 hx
        · exact absurd h2.symm hy

theorem connected_nil {x y : String} : Connected [] x y ↔ x = y := by
  constructor
  · intro h
    induction h with
    | refl => rfl
    | tail h1 h2 ih =>
      rcases h2 with ⟨fk, hfk, _⟩
      exact absurd hfk (List.not_mem_nil fk)
  · intro h
    rw [h]
    exact Relation.ReflTransGen.refl

theorem fkEdge_mono {l : List ForeignKey} {fk : ForeignKey} {x y : String}
    (h : fkEdge l x y) : fkEdge (l ++ [fk]) x y := by
  rcases h with ⟨fk', hm, hor⟩
  exact ⟨fk', List.mem_append_left _ hm, hor⟩

theorem connected_mono {l : List ForeignKey} {fk : ForeignKey} {x y : String}
    (h : Connected l x y) : Connected (l ++ [fk]) x y := by
  induction h with
  | refl => exact Relation.ReflTransGen.refl
  | tail h1 h2 ih => exact Relation.ReflTransGen.tail ih (fkEdge_mono h2)

theorem connected_edge {l : List ForeignKey} {fk : ForeignKey} (hm : fk ∈ l) :
    Connected l fk.sourceTable fk.targetTable :=
  Relation.ReflTransGen.single ⟨fk, hm, Or.inl ⟨rfl, rfl⟩⟩

theorem connected_edge_rev {l : List ForeignKey} {fk : ForeignKey} (hm : fk ∈ l) :
    Connected l fk.targetTable fk.sourceTable :=
  Relation.ReflTransGen.single ⟨fk, hm, Or.inr ⟨rfl, rfl⟩⟩


/-- Appending one edge to the edge list extends connectivity by
exactly the class merge of its two endpoints. -/
theorem connected_snoc {l : List ForeignKey} {fk : ForeignKey} {x y : String} :
    Connected (l ++ [fk]) x y
      ↔ connStep fk.sourceTable fk.targetTable (Connected l) x y := by
  unfold connStep
  constructor
  · intro h
    induction h with
    | refl => exact Or.inl Relation.ReflTransGen.refl
    | tail h1 h2 ih =>
      rcases h2 with ⟨fk', hm, hor⟩
      rcases List.mem_append.1 hm with hml | hmr
      · have hedge : Connected l _ _ := Relation.ReflTransGen.single ⟨fk', hml, hor⟩
        rcases ih with h | ⟨ha, hb⟩ | ⟨ha, hb⟩
        · exact Or.inl (h.trans hedge)
        · exact Or.inr (Or.inl ⟨ha, hb.trans hedge⟩)
        · exact Or.inr (Or.inr ⟨ha, hb.trans hedge⟩)
      · have hfk' : fk' = fk := List.mem_singleton.1 hmr
        rw [hfk'] at hor
        rcases hor with ⟨hs, ht⟩ | ⟨hs, ht⟩
        · subst hs
          subst ht
          rcases ih with h | ⟨ha, hb⟩ | ⟨ha, hb⟩
          · exact Or.inr (Or.inl ⟨h, Relation.ReflTransGen.refl⟩)
          · exact Or.inr (Or.inl ⟨ha, Relation.ReflTransGen.refl⟩)
          · exact Or.inl ha
        · subst hs
          subst ht
          rcases ih with h | ⟨ha, hb⟩ | ⟨ha, hb⟩
          · exact Or.inr (Or.inr ⟨h, Relation.ReflTransGen.refl⟩)
          · exact Or.inl ha
          · exact Or.inr (Or.inr ⟨ha, Relation.ReflTransGen.refl⟩)
  · rintro (h | ⟨ha, hb⟩ | ⟨ha, hb⟩)
    · exact connected_mono h
    · exact ((connected_mono ha).trans
        (connected_edge (List.mem_append_right l (List.mem_singleton.2 rfl)))).trans
        (connected_mono hb)
    · exact ((connected_mono ha).trans
        (connected_edge_rev (List.mem_append_right l (List.mem_singleton.2 rfl)))).trans
        (connected_mono hb)

/-- connExt over an edge extension of Connected collapses to Connected
of the concatenated edge list. -/
theorem connExt_eq_connected :
    ∀ (rest pre : List ForeignKey) (x y : String),
      connExt rest (Connected pre) x y ↔ Connected (pre ++ rest) x y := by
  intro rest
  induction rest with
  | nil =>
    intro pre x y
    rw [List.append_nil]
    exact Iff.rfl
  | cons fk rest ih =>
    intro pre x y
    have hfun : connStep fk.sourceTable fk.targetTable (Connected pre)
        = Connected (pre ++ [fk]) :=
      funext fun x => funext fun y => propext connected_snoc.symm
    show connExt rest (connStep fk.sourceTable fk.targetTable (Connected pre)) x y
      ↔ Connected (pre ++ fk :: rest) x y
    rw [hfun, ih (pre ++ [fk]) x y, List.append_assoc, List.singleton_append]

/-- Processing a list of unions turns the root-equality relation R
into connExt fks R, lengthening chains by at most one per union. -/
theorem processUnions_spec :
    ∀ (fks : List ForeignKey) (p : String → Option String) (n : ℕ) {F : ℕ}
      (R : String → String → Prop), Bnd p n → n + fks.length ≤ F →
      (∀ x y, rootN F p x = rootN F p y ↔ R x y) →
      (∀ x y, rootN F (processUnions F fks p) x = rootN F (processUnions F fks p) y
          ↔ connExt fks R x y)
      ∧ Bnd (processUnions F fks p) (n + fks.length) := by
  intro fks
  induction fks with
  | nil =>
    intro p n F R hB hF hR
    exact ⟨hR, hB⟩
  | cons fk fks ih =>
    intro p n F R hB hF hR
    have hlen : (fk :: fks).length = fks.length + 1 := rfl
    have hstep := unionUF_connStep hB (show n + 1 ≤ F by omega) fk.sourceTable
      fk.targetTable R hR
    have hrec := ih (unionUF F p fk.sourceTable fk.targetTable) (n + 1)
      (connStep fk.sourceTable fk.targetTable R) hstep.2 (by omega) hstep.1
    have heq : processUnions F (fk :: fks) p
        = processUnions F fks (unionUF F p fk.sourceTable fk.targetTable) := rfl
    rw [heq, show n + (fk :: fks).length = (n + 1) + fks.length by omega]
    exact hrec

/-- The whole union loop started from the seeded parent record: root
equality is exactly foreign-key path connectivity. -/
theorem processUnions_connected (tables : List TableInfo) (fks : List ForeignKey)
    {F : ℕ} (hF : fks.length ≤ F) :
    (∀ x y, rootN F (processUnions F fks (initParent tables)) x
        = rootN F (processUnions F fks (initParent tables)) y ↔ Connected fks x y)
    ∧ Bnd (processUnions F fks (initParent tables)) fks.length := by
  have h0 : ∀ x y, rootN F (initParent tables) x = rootN F (initParent tables) y
      ↔ Connected [] x y := by
    intro x y
    rw [rootN_initParent, rootN_initParent, connected_nil]
  have hs := processUnions_spec fks (initParent tables) 0 (Connected [])
    (initParent_Bnd tables) (by omega) h0
  refine ⟨?_, ?_⟩
  · intro x y
    rw [hs.1 x y, connExt_eq_connected fks [] x y, List.nil_append]
  · have h2 := hs.2
    rwa [Nat.zero_add] at h2

/-- SwimlaneView's conditional union loop equals the unconditional
loop over the endpoint-filtered foreign keys. -/
theorem processUnionsSw_eq_filter (F : ℕ) (tables : List TableInfo) :
    ∀ (fks : List ForeignKey) (p : String → Option String),
      processUnionsSw F tables fks p
        = processUnions F (fks.filter (bothInSet tables)) p := by
  intro fks
  induction fks with
  | nil => intro p; rfl
  | cons fk fks ih =>
    intro p
    by_cases h : bothInSet tables fk = true
    · have h1 : processUnionsSw F tables (fk :: fks) p
          = processUnionsSw F tables fks (unionUF F p fk.sourceTable fk.targetTable) := by
        unfold processUnionsSw
        rw [List.foldl_cons, if_pos h]
      rw [h1, ih, List.filter_cons_of_pos h]
      rfl
    · have h1 : processUnionsSw F tables (fk :: fks) p
          = processUnionsSw F tables fks p := by
        unfold processUnionsSw
        rw [List.foldl_cons, if_neg h]
      rw [h1, ih, List.filter_cons_of_neg h]

theorem collectGroups_eq_pure {F n : ℕ} :
    ∀ (ts : List TableInfo) (p : String → Option String)
      (gs : List (String × List TableInfo)), Bnd p n → n ≤ F →
      collectGroups F ts p gs = groupsPure (fun t => rootN F p t.name) ts gs := by
  intro ts
  induction ts with
  | nil => intro p gs hB hnF; rfl
  | cons t ts ih =>
    intro p gs hB hnF
    have hpres := findUF_preserves F p t.name (n := n) (F := F) (m := n) hB hnF
      (hB t.name) hnF (le_refl n)
    have hkey : (findUF F p t.name).1 = rootN F p t.name :=
      findUF_fst_root (hB t.name) hnF hnF
    have hstep : collectGroups F (t :: ts) p gs
        = collectGroups F ts (findUF F p t.name).2
            (addToGroups gs (findUF F p t.name).1 t) := rfl
    rw [hstep, ih (findUF F p t.name).2 _ hpres.2 hnF, hkey]
    have hfun : (fun u : TableInfo => rootN F (findUF F p t.name).2 u.name)
        = (fun u : TableInfo => rootN F p u.name) :=
      funext fun u => hpres.1 u.name
    rw [hfun]
    rfl

theorem addToGroups_memG {gs : List (String × List TableInfo)} {k : String}
    {t : TableInfo} {c : String} {u : TableInfo} :
    memG (addToGroups gs k t) c u ↔ memG gs c u ∨ (c = k ∧ u = t) := by
  unfold addToGroups
  by_cases h : k ∈ gs.map Prod.fst
  · rw [if_pos h]
    constructor
    · rintro ⟨g', hg', hfst, hu⟩
      rcases List.mem_map.1 hg' with ⟨g, hg, hgeq⟩
      by_cases hk : g.1 = k
      · rw [if_pos hk] at hgeq
        rw [← hgeq] at hfst hu
        rcases List.mem_append.1 hu with hul | hur
        · exact Or.inl ⟨g, hg, hfst, hul⟩
        · exact Or.inr ⟨hfst.symm.trans hk, List.mem_singleton.1 hur⟩
      · rw [if_neg hk] at hgeq
        rw [← hgeq] at hfst hu
        exact Or.inl ⟨g, hg, hfst, hu⟩
    · rintro (⟨g, hg, hfst, hu⟩ | ⟨hc, hu⟩)
      · by_cases hk : g.1 = k
        · refine ⟨(g.1, g.2 ++ [t]), ?_, hfst, List.mem_append_left _ hu⟩
          refine List.mem_map.2 ⟨g, hg, ?_⟩
          rw [if_pos hk]
        · refine ⟨g, ?_, hfst, hu⟩
          refine List.mem_map.2 ⟨g, hg, ?_⟩
          rw [if_neg hk]
      · rcases List.mem_map.1 h with ⟨g, hg, hgk⟩
        refine ⟨(g.1, g.2 ++ [t]), ?_, ?_, ?_⟩
        · refine List.mem_map.2 ⟨g, hg, ?_⟩
          rw [if_pos hgk]
        · rw [hgk, hc]
        · rw [hu]
          exact List.mem_append_right _ (List.mem_singleton.2 rfl)
  · rw [if_neg h]
    constructor
    · rintro ⟨g', hg', hfst, hu⟩
      rcases List.mem_append.1 hg' with hgl | hgr
      · exact Or.inl ⟨g', hgl, hfst, hu⟩
      · have hgeq : g' = (k, [t]) := List.mem_singleton.1 hgr
        rw [hgeq] at hfst hu
        exact Or.inr ⟨hfst.symm, List.mem_singleton.1 hu⟩
    · rintro (⟨g, hg, hfst, hu⟩ | ⟨hc, hu⟩)
      · exact ⟨g, List.mem_append_left _ hg, hfst, hu⟩
      · refine ⟨(k, [t]), List.mem_append_right _ (List.mem_singleton.2 rfl), hc.symm, ?_⟩
        rw [hu]
        exact List.mem_singleton.2 rfl

theorem memG_nil {c : String} {u : TableInfo} : ¬ memG [] c u := by
  rintro ⟨g, hg, _⟩
  exact absurd hg (List.not_mem_nil g)

theorem groupsPure_memG (key : TableInfo → String) :
    ∀ (ts : List TableInfo) (gs : List (String × List TableInfo))
      (c : String) (u : TableInfo),
      memG (groupsPure key ts gs) c u ↔ memG gs c u ∨ (u ∈ ts ∧ key u = c) := by
  intro ts
  induction ts with
  | nil =>
    intro gs c u
    constructor
    · intro h
      exact Or.inl h
    · rintro (h | ⟨hu, _⟩)
      · exact h
      · exact absurd hu (List.not_mem_nil u)
  | cons t ts ih =>
    intro gs c u
    have hstep : groupsPure key (t :: ts) gs
        = groupsPure key ts (addToGroups gs (key t) t) := rfl
    rw [hstep, ih (addToGroups gs (key t) t) c u, addToGroups_memG]
    constructor
    · rintro ((h | ⟨hc, hu⟩) | ⟨hts, hk⟩)
      · exact Or.inl h
      · refine Or.inr ⟨?_, ?_⟩
        · rw [hu]
          exact List.mem_cons_self t ts
        · rw [hu, ← hc]
      · exact Or.inr ⟨List.mem_cons_of_mem t hts, hk⟩
    · rintro (h | ⟨hts, hk⟩)
      · exact Or.inl (Or.inl h)
      · rcases List.mem_cons.1 hts with hut | huts
        · refine Or.inl (Or.inr ⟨?_, hut⟩)
          rw [← hk, hut]
        · exact Or.inr ⟨huts, hk⟩

theorem addToGroups_keys (gs : List (String × List TableInfo)) (k : String)
    (t : TableInfo) :
    keysOfG (addToGroups gs k t)
      = if k ∈ keysOfG gs then keysOfG gs else keysOfG gs ++ [k] := by
  unfold addToGroups keysOfG
  by_cases h : k ∈ gs.map Prod.fst
  · rw [if_pos h, if_pos h, List.map_map]
    refine List.map_congr_left ?_
    intro g hg
    by_cases hk : g.1 = k
    · simp only [Function.comp_apply]
      rw [if_pos hk]
    · simp only [Function.comp_apply]
      rw [if_neg hk]
  · rw [if_neg h, if_neg h, List.map_append]
    rfl

theorem groupsPure_keys_nodup (key : TableInfo → String) :
    ∀ (ts : List TableInfo) (gs : List (String × List TableInfo)),
      (keysOfG gs).Nodup → (keysOfG (groupsPure key ts gs)).Nodup := by
  intro ts
  induction ts with
  | nil => intro gs h; exact h
  | cons t ts ih =>
    intro gs h
    have hstep : groupsPure key (t :: ts) gs
        = groupsPure key ts (addToGroups gs (key t) t) := rfl
    rw [hstep]
    refine ih _ ?_
    rw [addToGroups_keys]
    by_cases hk : key t ∈ keysOfG gs
    · rw [if_pos hk]
      exact h
    · rw [if_neg hk]
      rw [List.nodup_append]
      refine ⟨h, List.nodup_singleton _, ?_⟩
      intro a ha hain
      rw [List.mem_singleton.1 hain] at ha
      exact hk ha

theorem groups_fst_inj {gs : List (String × List TableInfo)}
    (h : (keysOfG gs).Nodup) {g g' : String × List TableInfo}
    (hg : g ∈ gs) (hg' : g' ∈ gs) (hf : g.1 = g'.1) : g = g' :=
  List.inj_on_of_nodup_map h hg hg' hf

/-- The length of the endpoint-filtered foreign keys is below the
union-find fuel. -/
theorem filter_length_le_ufFuel (tables : List TableInfo) (fks : List ForeignKey) :
    (fks.filter (bothInSet tables)).length ≤ ufFuel fks := by
  have h := List.length_filter_le (bothInSet tables) fks
  unfold ufFuel
  omega

/-- swimlaneGroups as a pure grouping by final root. -/
theorem swimlaneGroups_eq_pure (tables : List TableInfo) (fks : List ForeignKey) :
    swimlaneGroups tables fks
      = groupsPure (fun t => rootN (ufFuel fks)
          (processUnions (ufFuel fks) (fks.filter (bothInSet tables))
            (initParent tables)) t.name) tables [] := by
  unfold swimlaneGroups
  rw [processUnionsSw_eq_filter]
  exact collectGroups_eq_pure tables _ []
    (processUnions_connected tables _ (filter_length_le_ufFuel tables fks)).2
    (filter_length_le_ufFuel tables fks)

/-- C4 (amended): in SwimlaneView, whose union loop checks that both
endpoints are filtered tables, two filtered tables share a lane iff
they are joined by an undirected path of in-set foreign-key edges, and
lane membership is a partition (every filtered table is in a lane, and
in only one).  GroupedView performs the union without the endpoint
check, so its clusters can merge tables that have no connecting path
within the table set (see the counterexample). -/
theorem clustering_partition_connected (tables : List TableInfo)
    (fks : List ForeignKey) (a b : TableInfo) (ha : a ∈ tables) (hb : b ∈ tables) :
    ((∃ g ∈ swimlaneGroups tables fks, a ∈ g.2 ∧ b ∈ g.2)
      ↔ Connected (fks.filter (bothInSet tables)) a.name b.name)
    ∧ (∃ g ∈ swimlaneGroups tables fks, a ∈ g.2)
    ∧ (∀ g g', g ∈ swimlaneGroups tables fks → g' ∈ swimlaneGroups tables fks →
        a ∈ g.2 → a ∈ g'.2 → g = g') := by
  have hconn := processUnions_connected tables (fks.filter (bothInSet tables))
    (F := ufFuel fks) (filter_length_le_ufFuel tables fks)
  have hmem : ∀ (c : String) (u : TableInfo),
      memG (swimlaneGroups tables fks) c u
        ↔ u ∈ tables ∧ rootN (ufFuel fks)
            (processUnions (ufFuel fks) (fks.filter (bothInSet tables))
              (initParent tables)) u.name = c := by
    intro c u
    rw [swimlaneGroups_eq_pure, groupsPure_memG]
    constructor
    · rintro (h | h)
      · exact absurd h memG_nil
      · exact h
    · intro h
      exact Or.inr h
  have hnodup : (keysOfG (swimlaneGroups tables fks)).Nodup := by
    rw [swimlaneGroups_eq_pure]
    exact groupsPure_keys_nodup _ tables [] List.nodup_nil
  refine ⟨⟨?_, ?_⟩, ?_, ?_⟩
  · rintro ⟨g, hg, hag, hbg⟩
    have h1 := (hmem g.1 a).1 ⟨g, hg, rfl, hag⟩
    have h2 := (hmem g.1 b).1 ⟨g, hg, rfl, hbg⟩
    exact (hconn.1 a.name b.name).1 (h1.2.trans h2.2.symm)
  · intro hc
    have hroot := (hconn.1 a.name b.name).2 hc
    obtain ⟨g, hg, hgf, hag⟩ := (hmem (rootN (ufFuel fks)
      (processUnions (ufFuel fks) (fks.filter (bothInSet tables))
        (initParent tables)) a.name) a).2 ⟨ha, rfl⟩
    obtain ⟨g', hg', hgf', hbg⟩ := (hmem (rootN (ufFuel fks)
      (processUnions (ufFuel fks) (fks.filter (bothInSet tables))
        (initParent tables)) a.name) b).2 ⟨hb, hroot.symm⟩
    have hgg := groups_fst_inj hnodup hg hg' (hgf.trans hgf'.symm)
    rw [← hgg] at hbg
    exact ⟨g, hg, hag, hbg⟩
  · obtain ⟨g, hg, _, hag⟩ := (hmem (rootN (ufFuel fks)
      (processUnions (ufFuel fks) (fks.filter (bothInSet tables))
        (initParent tables)) a.name) a).2 ⟨ha, rfl⟩
    exact ⟨g, hg, hag⟩
  · intro g g' hg hg' hag hag'
    have h1 := (hmem g.1 a).1 ⟨g, hg, rfl, hag⟩
    have h2 := (hmem g'.1 a).1 ⟨g', hg', rfl, hag'⟩
    exact groups_fst_inj hnodup hg hg' (h1.2.symm.trans h2.2)

/-- Schema refuting C4 as stated for GroupedView: tables A and B, and
two foreign keys A → X and B → X whose target X is not a table of the
schema. -/
def c4xSchema : SchemaData :=
  ⟨[⟨"A", "public", []⟩, ⟨"B", "public", []⟩],
   [⟨"fk1", "A", "x_id", "X", "id"⟩, ⟨"fk2", "B", "x_id", "X", "id"⟩], []⟩

/-- C4 is refuted by GroupedView's union loop: A and B end up in the
same cluster although no undirected path of foreign-key edges within
the table set joins them (both their keys point at the absent table
X, and GroupedView unions without checking the endpoints). -/
theorem clustering_partition_connected_counterexample :
    (∃ g ∈ groupedClusters c4xSchema,
        (⟨"A", "public", []⟩ : TableInfo) ∈ g.2
        ∧ (⟨"B", "public", []⟩ : TableInfo) ∈ g.2)
    ∧ ¬ Connected (c4xSchema.foreignKeys.filter (bothInSet c4xSchema.tables))
        "A" "B" := by
  constructor
  · decide
  · intro h
    have hfil : c4xSchema.foreignKeys.filter (bothInSet c4xSchema.tables) = [] := by
      decide
    rw [hfil] at h
    have := connected_nil.1 h
    exact absurd this (by decide)

/-- Input for the C4 witness: tables A and B joined by one in-set
foreign key. -/
def c4wTables : List TableInfo := [⟨"A", "public", []⟩, ⟨"B", "public", []⟩]

/-- The in-set foreign key A → B of the C4 witness. -/
def c4wFks : List ForeignKey := [⟨"fk1", "A", "b_id", "B", "id"⟩]

/-- Witness instantiating the amended C4 on a concrete schema. -/
theorem clustering_partition_connected_witness :
    (⟨"A", "public", []⟩ : TableInfo) ∈ c4wTables
    ∧ (⟨"B", "public", []⟩ : TableInfo) ∈ c4wTables
    ∧ (((∃ g ∈ swimlaneGroups c4wTables c4wFks,
          (⟨"A", "public", []⟩ : TableInfo) ∈ g.2
          ∧ (⟨"B", "public", []⟩ : TableInfo) ∈ g.2)
        ↔ Connected (c4wFks.filter (bothInSet c4wTables)) "A" "B")
      ∧ (∃ g ∈ swimlaneGroups c4wTables c4wFks,
          (⟨"A", "public", []⟩ : TableInfo) ∈ g.2)
      ∧ (∀ g g', g ∈ swimlaneGroups c4wTables c4wFks →
          g' ∈ swimlaneGroups c4wTables c4wFks →
          (⟨"A", "public", []⟩ : TableInfo) ∈ g.2 →
          (⟨"A", "public", []⟩ : TableInfo) ∈ g'.2 → g = g')) :=
  ⟨by decide, by decide,
    clustering_partition_connected c4wTables c4wFks ⟨"A", "public", []⟩
      ⟨"B", "public", []⟩ (by decide) (by decide)⟩

/-! ### Cluster sorting (GroupedView.tsx line 40, SwimlaneView.tsx
line 55): a stable JS sort with comparator b.length - a.length -/

theorem orderedInsert_filter_len {α : Type} (w : α → ℕ) (k : ℕ) (a : α) :
    ∀ l : List α,
      (List.orderedInsert (fun x y => w y ≤ w x) a l).filter (fun x => w x == k)
        = if w a = k then a :: l.filter (fun x => w x == k)
          else l.filter (fun x => w x == k) := by
  intro l
  induction l with
  | nil =>
    by_cases hak : w a = k
    · rw [if_pos hak]
      simp [List.orderedInsert, List.filter_cons, hak]
    · rw [if_neg hak]
      simp [List.orderedInsert, List.filter_cons, hak]
  | cons b l ih =>
    rw [List.orderedInsert]
    by_cases hr : w b ≤ w a
    · rw [if_pos hr]
      by_cases hak : w a = k
      · rw [if_pos hak]
        simp [List.filter_cons, hak]
      · rw [if_neg hak]
        simp [List.filter_cons, hak]
    · rw [if_neg hr]
      by_cases hbk : w b = k
      · have hak : ¬ w a = k := by omega
        rw [if_neg hak]
        rw [List.filter_cons, List.filter_cons]
        simp only [hbk, beq_self_eq_true, if_pos]
        rw [ih, if_neg hak]
      · by_cases hak : w a = k
        · rw [if_pos hak]
          rw [List.filter_cons, List.filter_cons]
          simp only [show (w b == k) = false by simp [hbk]]
          rw [ih, if_pos hak]
          simp
        · rw [if_neg hak]
          rw [List.filter_cons, List.filter_cons]
          simp only [show (w b == k) = false by simp [hbk]]
          rw [ih, if_neg hak]

/-- The stable sort by descending w keeps each w-class in input
order. -/
theorem insertionSort_filter_len {α : Type} (w : α → ℕ) (k : ℕ) :
    ∀ l : List α,
      (List.insertionSort (fun x y => w y ≤ w x) l).filter (fun x => w x == k)
        = l.filter (fun x => w x == k) := by
  intro l
  induction l with
  | nil => rfl
  | cons a l ih =>
    rw [List.insertionSort, orderedInsert_filter_len, List.filter_cons]
    by_cases hak : w a = k
    · rw [if_pos hak, ih]
      simp [hak]
    · rw [if_neg hak, ih]
      simp [hak]

/-- C8 (amended): both cluster lists are sorted by descending member
count and the sort is stable — clusters of equal member count keep
their insertion (first-appearance) order; there is no lexical
tiebreak on the component id (see the counterexample). -/
theorem clusterSort_descending_stable (schema : SchemaData)
    (tables : List TableInfo) (fks : List ForeignKey) :
    (List.Sorted (fun a b : String × List TableInfo => b.2.length ≤ a.2.length)
        (sortedClustersGV schema)
      ∧ (sortedClustersGV schema).Perm (clustersGV schema)
      ∧ ∀ k, (sortedClustersGV schema).filter (fun g => g.2.length == k)
          = (clustersGV schema).filter (fun g => g.2.length == k))
    ∧ (List.Sorted (fun a b : String × List TableInfo => b.2.length ≤ a.2.length)
        (sortedLanesSw tables fks)
      ∧ (sortedLanesSw tables fks).Perm (swimlaneGroups tables fks)
      ∧ ∀ k, (sortedLanesSw tables fks).filter (fun g => g.2.length == k)
          = (swimlaneGroups tables fks).filter (fun g => g.2.length == k)) := by
  haveI hT : IsTotal (String × List TableInfo)
      (fun a b => b.2.length ≤ a.2.length) := ⟨fun a b => Nat.le_total _ _⟩
  haveI hTr : IsTrans (String × List TableInfo)
      (fun a b => b.2.length ≤ a.2.length) := ⟨fun a b c h1 h2 => le_trans h2 h1⟩
  refine ⟨⟨?_, ?_, ?_⟩, ?_, ?_, ?_⟩
  · exact List.sorted_insertionSort _ _
  · exact List.perm_insertionSort _ _
  · intro k
    exact insertionSort_filter_len (fun g : String × List TableInfo => g.2.length)
      k (clustersGV schema)
  · exact List.sorted_insertionSort _ _
  · exact List.perm_insertionSort _ _
  · intro k
    exact insertionSort_filter_len (fun g : String × List TableInfo => g.2.length)
      k (swimlaneGroups tables fks)

/-- Schema refuting the lexical tiebreak of C8: two singleton
clusters, inserted in the order B then A. -/
def c8Schema : SchemaData :=
  ⟨[⟨"B", "public", []⟩, ⟨"A", "public", []⟩], [], []⟩

/-- C8 is refuted: the two clusters tie on member count and stay in
insertion order (B before A) although A is lexically smaller than B —
the sorts of GroupedView and SwimlaneView have no tiebreak at all. -/
theorem clusterSort_descending_stable_counterexample :
    sortedClustersGV c8Schema
      = [("B", [⟨"B", "public", []⟩]), ("A", [⟨"A", "public", []⟩])]
    ∧ "A".data < "B".data := by
  constructor
  · decide
  · decide

/-! ### C9: which dangling foreign keys are actually excluded -/

/-- C9 (amended): an edge is ignored exactly under the check the code
actually performs.  The leveler's deps ignore a foreign key whose
SOURCE is not a filtered table (so such a key changes no level), and
SwimlaneView's union loop ignores a foreign key unless BOTH endpoints
are filtered tables (so such a key performs no union and the parent
state — hence every lane — is unchanged).  A foreign key whose target
is absent but whose source is in the set is NOT excluded: it enters
the deps of its source and is unioned by GroupedView (see the
counterexample). -/
theorem danglingEdge_excluded (ts : List String) (fks1 fks2 : List ForeignKey)
    (fk : ForeignKey) (tables : List TableInfo) (F : ℕ)
    (p : String → Option String) (hsrc : fk.sourceTable ∉ ts)
    (hboth : bothInSet tables fk = false) :
    (∀ n, depsOf ts (fks1 ++ fk :: fks2) n = depsOf ts (fks1 ++ fks2) n)
    ∧ levelsOf ts (fks1 ++ fk :: fks2) = levelsOf ts (fks1 ++ fks2)
    ∧ processUnionsSw F tables (fks1 ++ fk :: fks2) p
        = processUnionsSw F tables (fks1 ++ fks2) p := by
  have hdeps : ∀ n, depsOf ts (fks1 ++ fk :: fks2) n = depsOf ts (fks1 ++ fks2) n := by
    intro n
    unfold depsOf
    by_cases hn : n ∈ ts
    · rw [if_pos hn, if_pos hn]
      have hne : (fk.sourceTable == n) = false := by
        simp only [beq_eq_false_iff_ne, ne_eq]
        intro hc
        rw [hc] at hsrc
        exact hsrc hn
      rw [List.filter_append, List.filter_append, List.filter_cons, hne]
      simp
    · rw [if_neg hn, if_neg hn]
  refine ⟨hdeps, ?_, ?_⟩
  · unfold levelsOf
    rw [funext hdeps]
  · unfold processUnionsSw
    rw [List.foldl_append, List.foldl_append, List.foldl_cons, if_neg]
    rw [hboth]
    exact Bool.false_ne_true

/-- Filtered table names for the C9 counterexample. -/
def c9ts : List String := ["alpha", "beta"]

/-- Foreign keys alpha → ghost (ghost absent) and beta → alpha. -/
def c9fksA : List ForeignKey :=
  [⟨"f1", "alpha", "g_id", "ghost", "id"⟩, ⟨"f2", "beta", "a_id", "alpha", "id"⟩]

/-- The same foreign keys without the dangling one. -/
def c9fksB : List ForeignKey := [⟨"f2", "beta", "a_id", "alpha", "id"⟩]

/-- Schema for the cluster half of the C9 counterexample: A → X and
B → X with X absent. -/
def c9SchemaA : SchemaData :=
  ⟨[⟨"A", "public", []⟩, ⟨"B", "public", []⟩],
   [⟨"fk1", "A", "x_id", "X", "id"⟩, ⟨"fk2", "B", "x_id", "X", "id"⟩], []⟩

/-- The same schema without the dangling foreign keys. -/
def c9SchemaB : SchemaData :=
  ⟨[⟨"A", "public", []⟩, ⟨"B", "public", []⟩], [], []⟩

/-- C9 is refuted: a foreign key with an in-set source and an absent
target IS recorded in the source's dependency set, changes the level
assignment, and (in GroupedView) changes the clusters. -/
theorem danglingEdge_excluded_counterexample :
    "ghost" ∈ depsOf c9ts c9fksA "alpha"
    ∧ levelsOf c9ts c9fksA ≠ levelsOf c9ts c9fksB
    ∧ groupedClusters c9SchemaA ≠ groupedClusters c9SchemaB := by
  refine ⟨by decide, by decide, by decide⟩

/-- Witness discharging the hypotheses of the amended C9 on a
concrete dangling edge. -/
theorem danglingEdge_excluded_witness :
    (⟨"f3", "gamma", "d_id", "delta", "id"⟩ : ForeignKey).sourceTable ∉ c9ts
    ∧ bothInSet [(⟨"A", "public", []⟩ : TableInfo)]
        ⟨"f3", "gamma", "d_id", "delta", "id"⟩ = false
    ∧ ((∀ n, depsOf c9ts (c9fksB ++ ⟨"f3", "gamma", "d_id", "delta", "id"⟩ :: []) n
          = depsOf c9ts (c9fksB ++ []) n)
      ∧ levelsOf c9ts (c9fksB ++ ⟨"f3", "gamma", "d_id", "delta", "id"⟩ :: [])
          = levelsOf c9ts (c9fksB ++ [])
      ∧ processUnionsSw 2 [(⟨"A", "public", []⟩ : TableInfo)]
            (c9fksB ++ ⟨"f3", "gamma", "d_id", "delta", "id"⟩ :: []) (fun _ => none)
          = processUnionsSw 2 [(⟨"A", "public", []⟩ : TableInfo)]
            (c9fksB ++ []) (fun _ => none)) :=
  ⟨by decide, by decide,
    danglingEdge_excluded c9ts c9fksB [] ⟨"f3", "gamma", "d_id", "delta", "id"⟩
      [⟨"A", "public", []⟩] 2 (fun _ => none) (by decide) (by decide)⟩
